import Mathlib

/-!
Verification of the Tetris genetic-algorithm engine
(`tetris.py`, `tetromino.py`, `ai.py`, `tetro.py`).

The Python code is shallowly embedded: boolean boards are
`List (List Bool)` indexed `grid[x][y]` (a list of columns, like the
source), the integer Tetris board is `List (List ℕ)` (cell `0` = empty,
otherwise a shape id), float weights become `ℚ`, Python `int` becomes
`ℤ` where negative values occur, and the pseudo-random sources
(`random.random`, `random.randint`, and the Box-Muller sampler
`TetrisAI.random_weight`) are abstracted as explicit streams of values
threaded through the functions that consume them.
-/

/-- Boolean grid as used by `TetrisAI` (`grid[x][y]`, column-major). -/
abbrev BGrid := List (List Bool)

/-- Integer grid as used by `Tetris` (`grid[x][y]`, `0` = empty, nonzero = shape id). -/
abbrev IGrid := List (List ℕ)

/-- Read `grid[x][y]` of a boolean grid; out-of-range reads default to `False`.
All in-range uses in the source are guarded, so the default is never relevant
under the hypotheses of the theorems below. -/
def cellB (g : BGrid) (x y : ℕ) : Bool :=
  (g.getD x []).getD y false

/-- Read `grid[x][y]` of an integer grid; out-of-range reads default to `0`. -/
def cellI (g : IGrid) (x y : ℕ) : ℕ :=
  (g.getD x []).getD y 0

/-- Read `block_data[x][y]` of a tetromino mask. -/
def maskAt (bd : List (List Bool)) (x y : ℕ) : Bool :=
  (bd.getD x []).getD y false

/-- The list `[lo, lo+1, ..., hi-1]` over `ℤ`, Python's `range(lo, hi)`. -/
def rangeZ (lo hi : ℤ) : List ℤ :=
  (List.range (hi - lo).toNat).map fun k => lo + (k : ℤ)

/-- The list `[lo, lo+1, ..., hi-1]` over `ℕ`, Python's `range(lo, hi)` for
the in-range loops of `compute_score`. -/
def rangeN (lo hi : ℕ) : List ℕ :=
  (List.range (hi - lo)).map fun k => lo + k

/-- The pre-computed data of one tetromino rotation used by `ai.py` and
`tetris.py`: the square mask `block_data`, its side `size`, the placement
envelope `min_x, min_y, max_x, max_y`, and the shape `id`
(fields of `tetromino.TetrominoType` / `tetromino.Tetromino`). -/
structure TminoData where
  id : ℕ
  block_data : List (List Bool)
  size : ℕ
  min_x : ℤ
  min_y : ℤ
  max_x : ℤ
  max_y : ℤ
deriving DecidableEq, Repr

/-- `tetris.is_colliding` (tetris.py:223-237): a tetromino placed at
`(xp, yp)` collides with the boolean grid `g` iff some mask cell is out of
bounds or overlaps an occupied grid cell. `len(grid)` is `g.length` and
`len(grid[0])` is `(g.headD []).length`, exactly as the source indexes. -/
def is_colliding (g : BGrid) (t : TminoData) (xp yp : ℤ) : Bool :=
  (List.range t.size).any fun a =>
    (List.range t.size).any fun b =>
      maskAt t.block_data a b &&
        (decide ((a : ℤ) + xp < 0) || decide ((b : ℤ) + yp < 0) ||
         decide ((g.length : ℤ) ≤ (a : ℤ) + xp) ||
         decide (((g.headD []).length : ℤ) ≤ (b : ℤ) + yp) ||
         cellB g ((a : ℤ) + xp).toNat ((b : ℤ) + yp).toNat)

/-- `TetrisAI.compute_heightmap` (ai.py:138-149): for each of the `W` columns,
the height `H - y` of the topmost occupied cell (first `y` with `grid[x][y]`),
or `0` for an empty column. -/
def compute_heightmap (W H : ℕ) (g : BGrid) : List ℕ :=
  (List.range W).map fun x =>
    match (List.range H).find? (fun y => cellB g x y) with
    | some y => H - y
    | none => 0

/-- `TetrisAI.hole_height_cap` (ai.py:18). -/
def hole_height_cap : ℕ := 5

/-- `TetrisAI.column_diff_cap` (ai.py:19). -/
def column_diff_cap : ℕ := 5

/-- The weight state of `TetrisAI` (ai.py:9-29): grid dimensions and the three
weight sequences. The caps are the constants above. -/
structure TetrisAI where
  grid_width : ℕ
  grid_height : ℕ
  row_filled_weights : List ℚ
  hole_height_weights : List ℚ
  column_diff_weights : List ℚ
deriving DecidableEq, Repr

/-- The hole-scoring inner loop of `TetrisAI.compute_score` (ai.py:120-130)
over one column, as the total amount subtracted from the score.  The list
argument is the sequence of cells `grid[x][y]` for
`y in range(H - heights[x], H)`, the accumulator is the running
`hole_height` counter.  A run closed by a filled cell subtracts
`hole_height_weights[min(h, cap) - 1]`; a run still open when the loop ends
subtracts `hole_height_weights[min(h, cap - 1)]`. -/
def holeLoopSum (w : List ℚ) : List Bool → ℕ → ℚ
  | [], h => if 0 < h then w.getD (min h (hole_height_cap - 1)) 0 else 0
  | c :: rest, h =>
    if c then
      (if 0 < h then w.getD (min h hole_height_cap - 1) 0 else 0) + holeLoopSum w rest 0
    else
      holeLoopSum w rest (h + 1)

/-- `TetrisAI.compute_score` (ai.py:108-135): row-fill reward minus hole
penalties minus adjacent-column height-difference penalties. -/
def compute_score (ai : TetrisAI) (g : BGrid) : ℚ :=
  let W := ai.grid_width
  let H := ai.grid_height
  let rowPart := ((List.range H).map fun y =>
    ai.row_filled_weights.getD ((List.range W).countP fun x => cellB g x y) 0).sum
  let heights := compute_heightmap W H g
  let holePart := ((List.range W).map fun x =>
    holeLoopSum ai.hole_height_weights
      ((rangeN (H - heights.getD x 0) H).map fun y => cellB g x y) 0).sum
  let diffPart := ((List.range (heights.length - 1)).map fun k =>
    ai.column_diff_weights.getD
      (min (((heights.getD (k + 1) 0 : ℤ) - (heights.getD k 0 : ℤ)).natAbs)
        (column_diff_cap - 1)) 0).sum
  rowPart - holePart - diffPart

/-- Lengths of the maximal runs of `false` cells of a column segment, in
top-to-bottom order, including the zero-length gaps between adjacent filled
cells; the last entry is the (possibly zero-length) run that reaches the
bottom of the segment.  This is the run decomposition used to state the
spec's hole-penalty formula. -/
def emptyChunks : List Bool → List ℕ
  | [] => [0]
  | true :: rest => 0 :: emptyChunks rest
  | false :: rest =>
    match emptyChunks rest with
    | [] => [1]
    | c :: cs => (c + 1) :: cs

/-- Spec-side hole penalty of a run decomposition, reflecting the source's
two clipping rules: an internal run of length `L > 0` (closed below by a
filled cell) costs `w[min(L, cap) - 1]`; the final run, which extends to the
bottom of the segment, costs `w[min(L, cap - 1)]`. -/
def penaltyOfChunks (w : List ℚ) : List ℕ → ℚ
  | [] => 0
  | [t] => if 0 < t then w.getD (min t (hole_height_cap - 1)) 0 else 0
  | c :: cs =>
    (if 0 < c then w.getD (min c hole_height_cap - 1) 0 else 0) + penaltyOfChunks w cs

/-- Spec-side hole penalty of one column segment. -/
def specHolePenalty (w : List ℚ) (cells : List Bool) : ℚ :=
  penaltyOfChunks w (emptyChunks cells)

/-- Uniform-clipping hole penalty of a run decomposition, following the
claim's words: every maximal empty run of length `L > 0`, the bottom-reaching
one included, costs `holeHeightWeights[clip(L, 1, H_cap) - 1]`. -/
def penaltyUniformOfChunks (w : List ℚ) : List ℕ → ℚ
  | [] => 0
  | c :: cs =>
    (if 0 < c then w.getD (min c hole_height_cap - 1) 0 else 0) +
      penaltyUniformOfChunks w cs

/-- Score formula written the way the claim C2 states it: identical to
`compute_score` except that the hole penalty applies the single clipping rule
`w[clip(L, 1, cap) - 1]` to every maximal empty run. -/
def specScoreUniform (ai : TetrisAI) (g : BGrid) : ℚ :=
  let W := ai.grid_width
  let H := ai.grid_height
  let rowPart := ((List.range H).map fun y =>
    ai.row_filled_weights.getD ((List.range W).countP fun x => cellB g x y) 0).sum
  let heights := compute_heightmap W H g
  let holePart := ((List.range W).map fun x =>
    penaltyUniformOfChunks ai.hole_height_weights
      (emptyChunks ((rangeN (H - heights.getD x 0) H).map fun y => cellB g x y))).sum
  let diffPart := ((List.range (heights.length - 1)).map fun k =>
    ai.column_diff_weights.getD
      (min (((heights.getD (k + 1) 0 : ℤ) - (heights.getD k 0 : ℤ)).natAbs)
        (column_diff_cap - 1)) 0).sum
  rowPart - holePart - diffPart

/-- Score formula with the hole penalty written as a sum over the maximal
empty runs of each column (the amended claim C2): internal runs are clipped
as `min(L, cap) - 1`, the bottom-reaching run as `min(L, cap - 1)`. -/
def specScoreRuns (ai : TetrisAI) (g : BGrid) : ℚ :=
  let W := ai.grid_width
  let H := ai.grid_height
  let rowPart := ((List.range H).map fun y =>
    ai.row_filled_weights.getD ((List.range W).countP fun x => cellB g x y) 0).sum
  let heights := compute_heightmap W H g
  let holePart := ((List.range W).map fun x =>
    specHolePenalty ai.hole_height_weights
      ((rangeN (H - heights.getD x 0) H).map fun y => cellB g x y)).sum
  let diffPart := ((List.range (heights.length - 1)).map fun k =>
    ai.column_diff_weights.getD
      (min (((heights.getD (k + 1) 0 : ℤ) - (heights.getD k 0 : ℤ)).natAbs)
        (column_diff_cap - 1)) 0).sum
  rowPart - holePart - diffPart

/-- `tetromino.rotate` (tetromino.py:162-179): 90-degree clockwise rotation of
a square mask, `new[x][y] = old[y][n - x - 1]`. -/
def rotate (block_data : List (List Bool)) : List (List Bool) :=
  (List.range block_data.length).map fun x =>
    (List.range block_data.length).map fun y =>
      maskAt block_data y (block_data.length - x - 1)

/-- Prepend `h` pending empty cells to the first run of a decomposition. -/
def addFirst (h : ℕ) : List ℕ → List ℕ
  | [] => []
  | c :: cs => (c + h) :: cs

/-- Concrete dimensions and weights refuting claim C2 as stated. -/
def aiC2 : TetrisAI := ⟨1, 2, [0, 0], [0, 1, 0, 0, 0], [0, 0, 0, 0, 0]⟩

/-- The single column of `aiC2`'s board: filled on top, one trapped hole of
run length 1 reaching the bottom row. -/
def gC2 : BGrid := [[true, false]]

/-- A completely empty `W × H` boolean board. -/
def emptyGrid (W H : ℕ) : BGrid := List.replicate W (List.replicate H false)

/-- Concrete dimensions and weights refuting claim C6 as stated. -/
def aiC6 : TetrisAI := ⟨2, 1, [0, 0, 0], [0, 0, 0, 0, 0], [1, 1, 1, 1, 1]⟩

/-- A concrete asymmetric 2 by 2 square mask. -/
def bdC8 : List (List Bool) := [[true, false], [false, false]]

/-- The greatest heightmap value among the columns `[i, i + size)` spanned by
the tetromino, skipping out-of-bounds columns (ai.py:86-92). -/
def greatestHeight (g : BGrid) (heights : List ℕ) (i : ℤ) (size : ℕ) : ℕ :=
  (rangeZ i (i + size)).foldl
    (fun gh j =>
      if 0 ≤ j ∧ j < (g.length : ℤ) then max gh (heights.getD j.toNat 0) else gh)
    0

/-- The downward contact scan of `compute_moves_available` (ai.py:96-100):
walk `y_pos` through the candidate offsets `js`; at the first colliding
offset `j` stop with `j - 1`, otherwise keep the last offset tried (`y0` is
the incoming `y_pos`, kept when the scan range is empty). -/
def dropY (g : BGrid) (t : TminoData) (x : ℤ) : List ℤ → ℤ → ℤ
  | [], y0 => y0
  | j :: rest, y0 =>
    if is_colliding g t x j then j - 1 else dropY g t x rest j

/-- The per-column loop of `compute_moves_available` (ai.py:84-103) for one
rotation: for each horizontal anchor `i`, find the greatest spanned height,
derive the scan start `max(len(grid[0]) - greatest_height - size, min_y)`,
run the downward scan, and append `(rotation, x_pos, y_pos)` whenever the
final position does not collide.  The `y_pos` state (second component)
persists across anchors, as the source mutates one `Tetromino` object. -/
def movesForX (g : BGrid) (heights : List ℕ) (t : TminoData) (r : ℕ) :
    List ℤ → ℤ → List (ℕ × ℤ × ℤ) → List (ℕ × ℤ × ℤ) × ℤ
  | [], y0, acc => (acc, y0)
  | i :: rest, y0, acc =>
    let gh := greatestHeight g heights i t.size
    let start := max (((g.headD []).length : ℤ) - (gh : ℤ) - (t.size : ℤ)) t.min_y
    let y1 := dropY g t i (rangeZ start (t.max_y + 1)) y0
    movesForX g heights t r rest y1
      (if is_colliding g t i y1 then acc else acc ++ [(r, i, y1)])

/-- `TetrisAI.compute_moves_available` (ai.py:76-104): all drop placements
`(rotation, x, y)` for the current piece.  The piece is given by its list of
rotationally-unique rotations (`tetromino.unique_rotations_list`) and by the
geometry-table lookup `table` mapping a rotation to the `TminoData` that
`Tetromino(tetromino.id, rotation)` would carry.  `W`, `H` are the AI's
`grid_width`, `grid_height` used by `compute_heightmap`. -/
def compute_moves_available (W H : ℕ) (g : BGrid) (rotations : List ℕ)
    (table : ℕ → TminoData) : List (ℕ × ℤ × ℤ) :=
  let heights := compute_heightmap W H g
  rotations.foldl
    (fun acc r =>
      (movesForX g heights (table r) r
        (rangeZ (table r).min_x ((table r).max_x + 1)) 0 acc).1)
    []

/-- A concrete empty 2 by 2 board for the claim C1 witness. -/
def gC1 : BGrid := [[false, false], [false, false]]

/-- A concrete one-cell piece table for the claim C1 witness. -/
def tableC1 : ℕ → TminoData := fun _ => ⟨1, [[true]], 1, 0, 0, 1, 1⟩

/-- Abstract pseudo-random source: a stream of probability draws for
`random.random()`, a stream of integer draws backing `random.randint`, and a
stream of sampled weights standing for the Box-Muller float computation of
`TetrisAI.random_weight` (ai.py:200-202), each with its read position.  The
functions below consume the streams exactly as the source consumes its
pseudo-random generator calls. -/
structure RandState where
  probs : ℕ → ℚ
  ppos : ℕ
  ints : ℕ → ℕ
  ipos : ℕ
  wvals : ℕ → ℚ
  wpos : ℕ

/-- One `random.random()` draw. -/
def drawProb (rs : RandState) : ℚ × RandState :=
  (rs.probs rs.ppos, { rs with ppos := rs.ppos + 1 })

/-- One `TetrisAI.random_weight()` draw (ai.py:200-202), abstracted to the
weight stream. -/
def random_weight (rs : RandState) : ℚ × RandState :=
  (rs.wvals rs.wpos, { rs with wpos := rs.wpos + 1 })

/-- One `random.randint(0, n)` draw (both bounds inclusive), taken from the
integer stream modulo `n + 1` so the result is always in range. -/
def randintLe (rs : RandState) (n : ℕ) : ℕ × RandState :=
  (rs.ints rs.ipos % (n + 1), { rs with ipos := rs.ipos + 1 })

/-- `n` successive `random_weight` draws, as used by the `TetrisAI`
constructor when a weight list is empty (ai.py:21-29). -/
def drawWeights : ℕ → RandState → List ℚ × RandState
  | 0, rs => ([], rs)
  | n + 1, rs =>
    let (v, rs1) := random_weight rs
    let (rest, rs2) := drawWeights n rs1
    (v :: rest, rs2)

/-- `TetrisAI.__init__` (ai.py:9-29): keep each provided weight list, or
generate `grid_width + 1` (respectively cap-many) random weights when the
provided list is empty. -/
def TetrisAI.init (W H : ℕ) (wr wh wd : List ℚ) (rs : RandState) :
    TetrisAI × RandState :=
  let p1 := if wr.length = 0 then drawWeights (W + 1) rs else (wr, rs)
  let p2 := if wh.length = 0 then drawWeights hole_height_cap p1.2 else (wh, p1.2)
  let p3 := if wd.length = 0 then drawWeights column_diff_cap p2.2 else (wd, p2.2)
  (⟨W, H, p1.1, p2.1, p3.1⟩, p3.2)

/-- `TetrisAI.clone` (ai.py:206-211): a new `TetrisAI` built from deep copies
of the three weight lists (copying is the identity in the pure embedding). -/
def clone (ai : TetrisAI) (rs : RandState) : TetrisAI × RandState :=
  TetrisAI.init ai.grid_width ai.grid_height ai.row_filled_weights
    ai.hole_height_weights ai.column_diff_weights rs

/-- The per-list loop of `TetrisAI.mutate` (ai.py:189-198) over the index
list `idxs`: for each index draw a probability; when it is at most the
mutation rate, draw a fresh weight and overwrite that index. -/
def mutateList (rate : ℚ) : List ℕ → List ℚ → RandState → List ℚ × RandState
  | [], l, rs => (l, rs)
  | i :: is, l, rs =>
    let (p, rs1) := drawProb rs
    if p ≤ rate then
      let (v, rs2) := random_weight rs1
      mutateList rate is (l.set i v) rs2
    else
      mutateList rate is l rs1

/-- `TetrisAI.mutate` (ai.py:189-198).  Note the row-fill loop runs over
`range(grid_width)` although the list has `grid_width + 1` entries. -/
def mutate (ai : TetrisAI) (rate : ℚ) (rs : RandState) : TetrisAI × RandState :=
  let q1 := mutateList rate (List.range ai.grid_width) ai.row_filled_weights rs
  let q2 := mutateList rate (List.range hole_height_cap) ai.hole_height_weights q1.2
  let q3 := mutateList rate (List.range column_diff_cap) ai.column_diff_weights q2.2
  (⟨ai.grid_width, ai.grid_height, q1.1, q2.1, q3.1⟩, q3.2)

/-- `TetrisAI.crossover` (ai.py:177-186): single-point crossover per weight
sequence, with each split index drawn by `randint(0, len(other list))`; the
result is passed through the `TetrisAI` constructor. -/
def crossover (ai1 ai2 : TetrisAI) (rs : RandState) : TetrisAI × RandState :=
  let (i1, rs1) := randintLe rs ai2.row_filled_weights.length
  let nrw := ai1.row_filled_weights.take i1 ++ ai2.row_filled_weights.drop i1
  let (i2, rs2) := randintLe rs1 ai2.hole_height_weights.length
  let nhw := ai1.hole_height_weights.take i2 ++ ai2.hole_height_weights.drop i2
  let (i3, rs3) := randintLe rs2 ai2.column_diff_weights.length
  let ndw := ai1.column_diff_weights.take i3 ++ ai2.column_diff_weights.drop i3
  TetrisAI.init ai2.grid_width ai2.grid_height nrw nhw ndw rs3

/-- Sequentially overwrite the entries of `l` at the positions of `idxs`
with successive values of the stream `w` starting at position `k`. -/
def setSeq : List ℚ → List ℕ → (ℕ → ℚ) → ℕ → List ℚ
  | l, [], _, _ => l
  | l, i :: is, w, k => setSeq (l.set i (w k)) is w (k + 1)

/-- A concrete empty 2 by 2 integer board for the claim C3 witness. -/
def gC3 : IGrid := [[0, 0], [0, 0]]

/-- A concrete piece for the claim C3 witness: a 2 by 2 mask whose bottom row
is filled, shape id 7. -/
def tC3 : TminoData := ⟨7, [[false, true], [false, true]], 2, 0, 0, 0, 1⟩

/-- Concrete AI refuting claim C5 as stated: `grid_width = 1`, so the
row-fill list has two entries but `mutate` only visits index `0`. -/
def aiC5 : TetrisAI := ⟨1, 1, [-1, -1], [-1, -1, -1, -1, -1], [-1, -1, -1, -1, -1]⟩

/-- Concrete random source for the claim C5 counterexample: every
probability draw is `0`, every fresh weight is `7`. -/
def rsC5 : RandState := ⟨fun _ => 0, 0, fun _ => 0, 0, fun _ => 7, 0⟩

/-- Concrete parent with all-empty weight lists refuting claim C9 as
stated. -/
def aiC9 : TetrisAI := ⟨1, 1, [], [], []⟩

/-- Concrete AI for the amended claim C5 witness. -/
def aiW5 : TetrisAI := ⟨1, 2, [1, 2], [1, 2, 3, 4, 5], [6, 7, 8, 9, 10]⟩

/-- Concrete random source for the amended claim C5 witness: probability
draws strictly between 0 and 1, fresh weights enumerating ℕ. -/
def rsW5 : RandState := ⟨fun _ => 1 / 2, 0, fun _ => 0, 0, fun n => (n : ℚ), 0⟩

/-- Write a single cell `grid[x][y] := v` of an integer grid. -/
def setCellI (g : IGrid) (x y : ℕ) (v : ℕ) : IGrid :=
  g.set x ((g.getD x []).set y v)

/-- The transfer loop of `Tetris.place_tetromino` (tetris.py:126-134): write
the piece id into each in-bounds mask cell, silently skipping cells outside
the `W × H` board. -/
def writeTmino (W H : ℕ) (t : TminoData) (xp yp : ℤ) (g : IGrid) : IGrid :=
  (List.range t.size).foldl
    (fun g1 a =>
      (List.range t.size).foldl
        (fun g2 b =>
          if maskAt t.block_data a b then
            if (a : ℤ) + xp < 0 ∨ (W : ℤ) ≤ (a : ℤ) + xp ∨
                (b : ℤ) + yp < 0 ∨ (H : ℤ) ≤ (b : ℤ) + yp then g2
            else setCellI g2 ((a : ℤ) + xp).toNat ((b : ℤ) + yp).toNat t.id
          else g2)
        g1)
    g

/-- The line-clear test of `place_tetromino` (tetris.py:144-148): a row is
cleared when every column is nonzero. -/
def rowFull (W : ℕ) (g : IGrid) (y : ℕ) : Bool :=
  (List.range W).all fun x => decide (cellI g x y ≠ 0)

/-- The clear operation of `place_tetromino` (tetris.py:150-157) on row `cy`:
every row above shifts down by one and the top row is zeroed.  Per column
this is `c ↦ (0 :: c.take cy) ++ c.drop (cy + 1)`, the functional form of
the source's in-place assignments `grid[x][y] = grid[x][y-1]` for
`y = cy, ..., 1` followed by `grid[x][0] = 0` (identical for columns of
length `H` with `cy < H`, the only case reachable under the theorems'
hypotheses). -/
def clearRowOp (g : IGrid) (cy : ℕ) : IGrid :=
  g.map fun c => (0 :: c.take cy) ++ c.drop (cy + 1)

/-- The bottom-to-top clear scan of `place_tetromino` (tetris.py:136-160):
`steps` iterations starting at row `cy`; a row at or below the board is
skipped, a full row is cleared (and the scan stays on the same row, which
now holds the row formerly above), otherwise the scan moves up one row.
`count` is the running `lines_cleared` counter.  Row reads use `cy.toNat`;
the source would wrap a negative index Python-style, a case excluded by the
hypothesis `0 ≤ y_pos` of the theorems below. -/
def clearLoop (W H : ℕ) : IGrid → ℤ → ℕ → ℕ → IGrid × ℕ
  | g, _, 0, count => (g, count)
  | g, cy, steps + 1, count =>
    if (H : ℤ) ≤ cy then clearLoop W H g (cy - 1) steps count
    else if rowFull W g cy.toNat then
      clearLoop W H (clearRowOp g cy.toNat) cy steps (count + 1)
    else clearLoop W H g (cy - 1) steps count

/-- `Tetris.place_tetromino` (tetris.py:124-160), board part: write the
current piece into the grid, then scan its vertical span
`y_pos + size - 1, ..` for full rows, returning the new grid and the updated
lines-cleared counter.  (Spawning the next piece, tetris.py:162-172, does
not touch the grid and is not modelled.) -/
def place_tetromino (W H : ℕ) (g : IGrid) (t : TminoData) (xp yp : ℤ)
    (lines_cleared : ℕ) : IGrid × ℕ :=
  clearLoop W H (writeTmino W H t xp yp g) (yp + (t.size : ℤ) - 1) t.size
    lines_cleared

/-- Number of completely filled rows of a `W × H` grid. -/
def countFullRows (W H : ℕ) (g : IGrid) : ℕ :=
  (List.range H).countP fun y => rowFull W g y

/-- Spec-side description of resolving all full rows at once: every column
keeps its cells from non-full rows in order, shifted down, with zeros
filling the vacated top rows. -/
def specCleared (W H : ℕ) (g : IGrid) : IGrid :=
  g.map fun c =>
    List.replicate (countFullRows W H g) 0 ++
      ((List.range H).filter fun y => !rowFull W g y).map fun y => c.getD y 0

/-- The comparison key of the stable sort in `next_generation`
(tetro.py:270): order fitness pairs by their lines-cleared component. -/
def fitLE (a b : ℕ × ℕ) : Prop := a.1 ≤ b.1

instance : DecidableRel fitLE := fun a b => (inferInstance : Decidable (a.1 ≤ b.1))

instance : IsTotal (ℕ × ℕ) fitLE := ⟨fun a b => Nat.le_total a.1 b.1⟩

instance : IsTrans (ℕ × ℕ) fitLE := ⟨fun _ _ _ h1 h2 => Nat.le_trans h1 h2⟩

/-- `fitness_scores` after the sort and the reversal (tetro.py:269-271):
pairs `(lines cleared, instance index)` in descending fitness order, with
ties kept in the order the stable sort leaves them. -/
def rankedPairs (fits : List ℕ) : List (ℕ × ℕ) :=
  (List.insertionSort fitLE (fits.zip (List.range fits.length))).reverse

/-- `avg_most` (tetro.py:278): the average lines cleared over the top
`selection_size` ranked pairs. -/
def avgMostOf (fits : List ℕ) (selSize : ℕ) : ℚ :=
  (((rankedPairs fits).take selSize).map fun p => (p.1 : ℚ)).sum /
    (((rankedPairs fits).take selSize).length : ℚ)

/-- Default `TetrisAI` for out-of-range list reads in the embedding. -/
def defaultAI : TetrisAI := ⟨0, 0, [], [], []⟩

/-- The elite-cloning loop of `next_generation` (tetro.py:305-306): clone
the AI at each ranked pair's instance index in order, threading the random
source. -/
def cloneMany (ais : List TetrisAI) :
    List (ℕ × ℕ) → RandState → List TetrisAI × RandState
  | [], rs => ([], rs)
  | p :: ps, rs =>
    let q := clone (ais.getD p.2 defaultAI) rs
    let r := cloneMany ais ps q.2
    (q.1 :: r.1, r.2)

/-- The inner rejection loop of `next_generation` (tetro.py:310-312): draw
`idx2` with `randint(0, n)` until it differs from `idx1`, with an explicit
iteration budget (`none` when it runs out). -/
def drawDistinct (n idx1 : ℕ) : RandState → ℕ → Option (ℕ × RandState)
  | _, 0 => none
  | rs, fuel + 1 =>
    let q := randintLe rs n
    if q.1 = idx1 then drawDistinct n idx1 q.2 fuel else some q

/-- The crossover-and-mutate loop of `next_generation` (tetro.py:308-315):
while the new population is short of `popSize`, pick two distinct parents
among the top `highest` pairs, cross them over and mutate the child.  The
outer `while` has no bound in the source, so it carries a fuel budget. -/
def nextGenLoop (popSize : ℕ) (mutRate : ℚ) (ais : List TetrisAI)
    (highest : List (ℕ × ℕ)) (rfuel : ℕ) :
    List TetrisAI → RandState → ℕ → Option (List TetrisAI × RandState)
  | acc, rs, 0 => if acc.length = popSize then some (acc, rs) else none
  | acc, rs, fuel + 1 =>
    if acc.length = popSize then some (acc, rs)
    else
      let q1 := randintLe rs (highest.length - 1)
      match drawDistinct (highest.length - 1) q1.1 q1.2 rfuel with
      | none => none
      | some q2 =>
        let par1 := ais.getD (highest.getD q1.1 (0, 0)).2 defaultAI
        let par2 := ais.getD (highest.getD q2.1 (0, 0)).2 defaultAI
        let qc := crossover par1 par2 q2.2
        let qm := mutate qc.1 mutRate qc.2
        nextGenLoop popSize mutRate ais highest rfuel (acc ++ [qm.1]) qm.2 fuel

/-- The reseed branch of `next_generation` (tetro.py:300-302): `popSize`
brand-new AIs, each built by the constructor from three empty weight lists
(so with freshly sampled weights). -/
def freshAIs (W H : ℕ) : ℕ → RandState → List TetrisAI × RandState
  | 0, rs => ([], rs)
  | n + 1, rs =>
    let q := TetrisAI.init W H [] [] [] rs
    let r := freshAIs W H n q.2
    (q.1 :: r.1, r.2)

/-- `TetroGUI.next_generation` (tetro.py:264-321), restricted to the
population update: rank the fitness pairs, reseed the whole population when
the top-`selSize` average is at most `0.1`, and otherwise clone the
`popSize / 2` best-ranked AIs and fill the rest with mutated crossover
children of parents drawn from the top `selSize` pairs. -/
def next_generation (W H popSize selSize : ℕ) (mutRate : ℚ)
    (ais : List TetrisAI) (fits : List ℕ) (rs : RandState) (fuel rfuel : ℕ) :
    Option (List TetrisAI × RandState) :=
  let fs := rankedPairs fits
  let highest := fs.take selSize
  if avgMostOf fits selSize ≤ 1 / 10 then
    some (freshAIs W H popSize rs)
  else
    let q := cloneMany ais (fs.take (popSize / 2)) rs
    nextGenLoop popSize mutRate ais highest rfuel q.1 q.2 fuel

/-- Concrete previous generation for the claim C4 witness: ten AIs on a
1 by 1 board with distinct, nonempty weight lists. -/
def aisC4 : List TetrisAI :=
  [⟨1, 1, [0], [10], [20]⟩, ⟨1, 1, [1], [11], [21]⟩, ⟨1, 1, [2], [12], [22]⟩,
   ⟨1, 1, [3], [13], [23]⟩, ⟨1, 1, [4], [14], [24]⟩, ⟨1, 1, [5], [15], [25]⟩,
   ⟨1, 1, [6], [16], [26]⟩, ⟨1, 1, [7], [17], [27]⟩, ⟨1, 1, [8], [18], [28]⟩,
   ⟨1, 1, [9], [19], [29]⟩]

/-- Concrete fitness scores for the claim C4 witness. -/
def fitsC4 : List ℕ := [3, 1, 4, 1, 5, 9, 2, 6, 5, 3]

/-- Concrete random source for the claim C4 witness: probability draws are
all `1` (so a mutation rate of `0` changes nothing), integer draws
enumerate ℕ (so consecutive parent indices always differ). -/
def rsC4 : RandState := ⟨fun _ => 1, 0, fun n => n, 0, fun _ => 0, 0⟩

/-- The next generation produced from `aisC4`, `fitsC4` and `rsC4`: the five
clones of the top-ranked AIs (instances 5, 7, 8, 4, 2) followed by five
crossover children, with the random source advanced by 55 probability draws
and 25 integer draws. -/
def resC4 : List TetrisAI × RandState :=
  ([⟨1, 1, [5], [15], [25]⟩, ⟨1, 1, [7], [17], [27]⟩, ⟨1, 1, [8], [18], [28]⟩,
    ⟨1, 1, [4], [14], [24]⟩, ⟨1, 1, [2], [12], [22]⟩, ⟨1, 1, [7], [15], [27]⟩,
    ⟨1, 1, [7], [18], [27]⟩, ⟨1, 1, [4], [18], [24]⟩, ⟨1, 1, [4], [15], [24]⟩,
    ⟨1, 1, [7], [15], [27]⟩],
   ⟨fun _ => 1, 55, fun n => n, 25, fun _ => 0, 0⟩)

lemma emptyChunks_ne_nil (cells : List Bool) : emptyChunks cells ≠ [] := by
  cases cells with
  | nil => simp [emptyChunks]
  | cons c rest =>
    cases c <;> simp only [emptyChunks]
    · cases hE : emptyChunks rest <;> simp
    · simp

lemma addFirst_zero (l : List ℕ) : addFirst 0 l = l := by
  cases l <;> simp [addFirst]

lemma addFirst_addFirst (a b : ℕ) (l : List ℕ) :
    addFirst a (addFirst b l) = addFirst (a + b) l := by
  cases l <;> simp [addFirst] <;> omega

lemma penaltyOfChunks_cons (w : List ℚ) (c : ℕ) (cs : List ℕ) (hcs : cs ≠ []) :
    penaltyOfChunks w (c :: cs) =
      (if 0 < c then w.getD (min c hole_height_cap - 1) 0 else 0) +
        penaltyOfChunks w cs := by
  cases cs with
  | nil => exact absurd rfl hcs
  | cons c' cs' => rfl

lemma holeLoopSum_eq_penalty (w : List ℚ) (cells : List Bool) (h : ℕ) :
    holeLoopSum w cells h = penaltyOfChunks w (addFirst h (emptyChunks cells)) := by
  induction cells generalizing h with
  | nil => simp [holeLoopSum, emptyChunks, addFirst, penaltyOfChunks]
  | cons c rest ih =>
    cases c with
    | true =>
      rw [holeLoopSum, ih 0, addFirst_zero]
      show _ = penaltyOfChunks w (addFirst h (0 :: emptyChunks rest))
      rw [show addFirst h (0 :: emptyChunks rest) = h :: emptyChunks rest by
        simp [addFirst]]
      rw [penaltyOfChunks_cons w h _ (emptyChunks_ne_nil rest)]
      simp
    | false =>
      rw [holeLoopSum, ih (h + 1)]
      have hstep : emptyChunks (false :: rest) = addFirst 1 (emptyChunks rest) := by
        rw [emptyChunks]
        cases hE : emptyChunks rest with
        | nil => exact absurd hE (emptyChunks_ne_nil rest)
        | cons c' cs' => simp [addFirst]
      rw [hstep, addFirst_addFirst]
      rw [show h + 1 = 1 + h by omega]
      simp

lemma specHolePenalty_eq_holeLoopSum (w : List ℚ) (cells : List Bool) :
    holeLoopSum w cells 0 = specHolePenalty w cells := by
  rw [holeLoopSum_eq_penalty, addFirst_zero, specHolePenalty]

/-- Claim C2, amended: `compute_score`'s hole penalty is, for every column,
the sum over the maximal runs of empty cells beneath the topmost filled cell
of `holeHeightWeights[min(runLength, H_cap) - 1]` for each run closed below
by a filled cell, but `holeHeightWeights[min(runLength, H_cap - 1)]` for the
run that extends down to the board's bottom row — the two branches do not
apply the same clipping rule. -/
theorem compute_score_eq_specScoreRuns (ai : TetrisAI) (g : BGrid) :
    compute_score ai g = specScoreRuns ai g := by
  simp only [compute_score, specScoreRuns, specHolePenalty_eq_holeLoopSum]

/-- Claim C2 counterexample: on a 1-wide, 2-tall board whose column is
`[filled, empty]`, the bottom-reaching hole run of length 1 is charged
`holeHeightWeights[min(1, cap - 1)] = holeHeightWeights[1] = 1`, while the
claim's uniform rule `holeHeightWeights[clip(1, 1, cap) - 1] =
holeHeightWeights[0] = 0` predicts no charge: the code's score is `-1`, the
claim's formula gives `0`. -/
theorem compute_score_uniform_clip_counterexample :
    compute_score aiC2 gC2 ≠ specScoreUniform aiC2 gC2 := by
  norm_num [compute_score, specScoreUniform, aiC2, gC2, compute_heightmap,
    cellB, rangeN, holeLoopSum, penaltyUniformOfChunks, emptyChunks,
    hole_height_cap, column_diff_cap, List.find?, List.countP, List.countP.go,
    List.range, List.range.loop]

lemma cellB_emptyGrid (W H x y : ℕ) : cellB (emptyGrid W H) x y = false := by
  simp only [cellB, emptyGrid, List.getD_eq_getElem?_getD, List.getElem?_replicate]
  by_cases hx : x < W
  · by_cases hy : y < H <;> simp [hx, hy]
  · simp [hx]

lemma compute_heightmap_emptyGrid (W H : ℕ) :
    compute_heightmap W H (emptyGrid W H) = List.replicate W 0 := by
  simp only [compute_heightmap]
  rw [show (fun x => match (List.range H).find? (fun y => cellB (emptyGrid W H) x y) with
      | some y => H - y
      | none => 0) = (fun _ : ℕ => (0 : ℕ)) from funext fun x => by
    rw [List.find?_eq_none.mpr fun y _ => by simp [cellB_emptyGrid]]]
  simp [List.map_const']

/-- Claim C6 counterexample: on an empty 2-wide, 1-tall board with zero
row-fill weights and `columnDiffWeights[0] = 1`, the claim predicts the score
`H × r0 = 0`, but `compute_score` also subtracts
`columnDiffWeights[min(|0 - 0|, cap - 1)] = columnDiffWeights[0]` for the one
adjacent column pair of equal (zero) heights, giving `-1`. -/
theorem empty_board_score_counterexample :
    compute_score aiC6 (emptyGrid 2 1) ≠
      (aiC6.grid_height : ℚ) * aiC6.row_filled_weights.getD 0 0 := by
  norm_num [compute_score, aiC6, emptyGrid, compute_heightmap, cellB, rangeN,
    holeLoopSum, hole_height_cap, column_diff_cap, List.replicate, List.find?,
    List.countP, List.countP.go, List.range, List.range.loop]

/-- Claim C6, amended: scoring a completely empty `W × H` board yields
`H * r0 - (W - 1) * d0`, where `r0` is the first row-fill weight and `d0` the
first column-diff weight: every row contributes `r0`, there are no holes, and
each of the `W - 1` adjacent column pairs is charged the zero-difference
column-diff weight `d0`.  The score is independent of the hole-height weights
and of all other entries of the two penalty sequences. -/
theorem empty_board_score_amended (W H : ℕ) (wr wh wd : List ℚ)
    (hr : wr.length = W + 1) (hh : wh.length = 5) (hd : wd.length = 5) :
    compute_score ⟨W, H, wr, wh, wd⟩ (emptyGrid W H) =
      (H : ℚ) * wr.getD 0 0 - ((W - 1 : ℕ) : ℚ) * wd.getD 0 0 := by
  simp only [compute_score, compute_heightmap_emptyGrid]
  have hget : ∀ x : ℕ, (List.replicate W (0 : ℕ)).getD x 0 = 0 := by
    intro x
    simp only [List.getD_eq_getElem?_getD, List.getElem?_replicate]
    by_cases hx : x < W <;> simp [hx]
  have hrow : ((List.range H).map fun y =>
      wr.getD ((List.range W).countP fun x => cellB (emptyGrid W H) x y) 0) =
      List.replicate H (wr.getD 0 0) := by
    rw [show (fun y => wr.getD ((List.range W).countP
        fun x => cellB (emptyGrid W H) x y) 0) = (fun _ : ℕ => wr.getD 0 0) from
      funext fun y => by
        rw [List.countP_eq_zero.mpr fun a _ => by simp [cellB_emptyGrid]]]
    simp [List.map_const']
  have hhole : ((List.range W).map fun x =>
      holeLoopSum wh ((rangeN (H - (List.replicate W (0:ℕ)).getD x 0) H).map
        fun y => cellB (emptyGrid W H) x y) 0) = List.replicate W 0 := by
    rw [show (fun x => holeLoopSum wh
        ((rangeN (H - (List.replicate W (0:ℕ)).getD x 0) H).map
          fun y => cellB (emptyGrid W H) x y) 0) = (fun _ : ℕ => (0 : ℚ)) from
      funext fun x => by
        rw [hget x]
        simp [rangeN, holeLoopSum]]
    simp [List.map_const']
  have hdiff : ((List.range ((List.replicate W (0:ℕ)).length - 1)).map fun k =>
      wd.getD (min ((((List.replicate W (0:ℕ)).getD (k + 1) 0 : ℤ) -
        ((List.replicate W (0:ℕ)).getD k 0 : ℤ)).natAbs) (column_diff_cap - 1)) 0) =
      List.replicate (W - 1) (wd.getD 0 0) := by
    rw [show (fun k => wd.getD (min ((((List.replicate W (0:ℕ)).getD (k + 1) 0 : ℤ) -
        ((List.replicate W (0:ℕ)).getD k 0 : ℤ)).natAbs) (column_diff_cap - 1)) 0) =
        (fun _ : ℕ => wd.getD 0 0) from
      funext fun k => by rw [hget (k + 1), hget k]; simp]
    simp [List.map_const', List.length_replicate]
  rw [hrow, hhole, hdiff]
  simp [List.sum_replicate, nsmul_eq_mul]

lemma getD_append_lt {α : Type} (a b : List α) (d : α) (i : ℕ) (h : i < a.length) :
    (a ++ b).getD i d = a.getD i d := by
  simp [List.getD_eq_getElem?_getD, List.getElem?_append, h]

lemma getElemq_append_lt {α : Type} (a b : List α) (d : α) (i : ℕ) (h : i < a.length) :
    ((a ++ b)[i]?).getD d = (a[i]?).getD d := by
  simp [List.getElem?_append, h]

lemma holeLoopSum_append (wh e : List ℚ) (h5 : wh.length = 5) :
    ∀ (cells : List Bool) (h : ℕ),
      holeLoopSum (wh ++ e) cells h = holeLoopSum wh cells h := by
  intro cells
  induction cells with
  | nil =>
    intro h
    simp [holeLoopSum,
      getElemq_append_lt wh e 0 (min h (hole_height_cap - 1))
        (by rw [h5]; simp only [hole_height_cap]; omega)]
  | cons c rest ih =>
    intro h
    cases c with
    | true =>
      simp [holeLoopSum, ih,
        getElemq_append_lt wh e 0 (min h hole_height_cap - 1)
          (by rw [h5]; simp only [hole_height_cap]; omega)]
    | false => simp [holeLoopSum, ih]

/-- Claim C10: with the configured weight-list lengths (`W + 1` row-fill
weights, `5` hole-height weights, `5` column-diff weights), `compute_score`
never reads a weight index out of range on a `W × H` board: every row-fill
index is at most `W`, and every hole-height or column-diff index is at most
`4`.  This is stated as invariance of the score under arbitrary extension of
all three weight lists: entries beyond the configured lengths are never
consulted. -/
theorem compute_score_index_bounds (W H : ℕ) (g : BGrid) (wr wh wd : List ℚ)
    (hg : g.length = W) (hcols : ∀ c ∈ g, c.length = H)
    (hr : wr.length = W + 1) (hh : wh.length = 5) (hd : wd.length = 5)
    (e1 e2 e3 : List ℚ) :
    compute_score ⟨W, H, wr ++ e1, wh ++ e2, wd ++ e3⟩ g =
      compute_score ⟨W, H, wr, wh, wd⟩ g := by
  simp only [compute_score]
  congr 2
  · congr 1
    refine List.map_congr_left fun y _ => ?_
    exact getD_append_lt wr e1 0 _ (by
      have hc : (List.range W).countP (fun x => cellB g x y) ≤ (List.range W).length :=
        List.countP_le_length _
      simp only [List.length_range] at hc
      omega)
  · refine congrArg _ (List.map_congr_left fun x _ => ?_)
    exact holeLoopSum_append wh e2 hh _ 0
  · refine List.map_congr_left fun k _ => ?_
    exact getD_append_lt wd e3 0 _ (by
      rw [hd]
      simp only [column_diff_cap]
      omega)

/-- Witness for claim C10 at a concrete board, weight lists and extensions. -/
theorem compute_score_index_bounds_witness :
    (([[true]] : BGrid).length = 1 ∧ (∀ c ∈ ([[true]] : BGrid), c.length = 1) ∧
      ([(1 : ℚ), 2].length = 1 + 1 ∧ [(0 : ℚ), 0, 0, 0, 0].length = 5)) ∧
    compute_score ⟨1, 1, [1, 2] ++ [9], [0, 0, 0, 0, 0] ++ [9], [0, 0, 0, 0, 0] ++ [9]⟩
        [[true]] =
      compute_score ⟨1, 1, [1, 2], [0, 0, 0, 0, 0], [0, 0, 0, 0, 0]⟩ [[true]] :=
  ⟨⟨by decide, by decide, by decide, by decide⟩,
    compute_score_index_bounds 1 1 [[true]] [1, 2] [0, 0, 0, 0, 0] [0, 0, 0, 0, 0]
      (by decide) (by decide) (by decide) (by decide) (by decide) [9] [9] [9]⟩

lemma rotate_length (bd : List (List Bool)) : (rotate bd).length = bd.length := by
  simp [rotate]

lemma rotate_row_length (bd : List (List Bool)) (x : ℕ) (hx : x < (rotate bd).length) :
    ((rotate bd).get ⟨x, hx⟩).length = bd.length := by
  simp [rotate, List.get_eq_getElem]

lemma maskAt_rotate (bd : List (List Bool)) (x y : ℕ)
    (hx : x < bd.length) (hy : y < bd.length) :
    maskAt (rotate bd) x y = maskAt bd y (bd.length - x - 1) := by
  have hx4 : x < (rotate bd).length := by rw [rotate_length]; exact hx
  have e0 : maskAt (rotate bd) x y = ((rotate bd)[x]).getD y false := by
    unfold maskAt
    rw [List.getD_eq_getElem (rotate bd) [] hx4]
  rw [e0]
  have e1 : (rotate bd)[x] = (List.range bd.length).map
      (fun j => maskAt bd j (bd.length - x - 1)) := by
    simp [rotate]
  rw [e1, List.getD_eq_getElem _ false (by simpa using hy)]
  simp

lemma maskAt_col_oob (l : List (List Bool)) (x y : ℕ) (hx : l.length ≤ x) :
    maskAt l x y = false := by
  unfold maskAt
  rw [List.getD_eq_default _ _ hx]
  simp

lemma grid_ext (a b : List (List Bool)) (hl : a.length = b.length)
    (hrow : ∀ (x : ℕ) (hx : x < a.length) (hx2 : x < b.length),
      (a.get ⟨x, hx⟩).length = (b.get ⟨x, hx2⟩).length)
    (hcell : ∀ x y, maskAt a x y = maskAt b x y) : a = b := by
  refine List.ext_getElem hl ?_
  intro x h1 h2
  refine List.ext_getElem (by simpa [List.get_eq_getElem] using hrow x h1 h2) ?_
  intro y hy1 hy2
  have e1 : maskAt a x y = (a[x]).getD y false := by
    unfold maskAt
    rw [List.getD_eq_getElem a [] h1]
  have e2 : maskAt b x y = (b[x]).getD y false := by
    unfold maskAt
    rw [List.getD_eq_getElem b [] h2]
  have hc := hcell x y
  rw [e1, e2, List.getD_eq_getElem _ false hy1, List.getD_eq_getElem _ false hy2] at hc
  exact hc

/-- Claim C8: rotating any square boolean mask four times with the
90-degree-clockwise rotation of `tetromino.rotate` reproduces the original
mask cell for cell. -/
theorem rotate_four_times_id (bd : List (List Bool))
    (hsq : ∀ r ∈ bd, r.length = bd.length) :
    rotate (rotate (rotate (rotate bd))) = bd := by
  have l1 : (rotate bd).length = bd.length := rotate_length bd
  have l2 : (rotate (rotate bd)).length = bd.length := by rw [rotate_length, l1]
  have l3 : (rotate (rotate (rotate bd))).length = bd.length := by rw [rotate_length, l2]
  have l4 : (rotate (rotate (rotate (rotate bd)))).length = bd.length := by
    rw [rotate_length, l3]
  refine grid_ext _ _ l4 ?_ ?_
  · intro x hx hx2
    rw [rotate_row_length _ _ hx, l3]
    exact (hsq _ (List.get_mem bd x hx2)).symm
  · intro x y
    by_cases hx : x < bd.length
    · by_cases hy : y < bd.length
      · have n := bd.length
        have s1 : maskAt (rotate (rotate (rotate (rotate bd)))) x y =
            maskAt (rotate (rotate (rotate bd))) y (bd.length - x - 1) := by
          have := maskAt_rotate (rotate (rotate (rotate bd))) x y
            (by rw [l3]; exact hx) (by rw [l3]; exact hy)
          rwa [l3] at this
        have s2 : maskAt (rotate (rotate (rotate bd))) y (bd.length - x - 1) =
            maskAt (rotate (rotate bd)) (bd.length - x - 1) (bd.length - y - 1) := by
          have := maskAt_rotate (rotate (rotate bd)) y (bd.length - x - 1)
            (by rw [l2]; exact hy) (by rw [l2]; omega)
          rwa [l2, show bd.length - y - 1 = bd.length - y - 1 from rfl] at this
        have s3 : maskAt (rotate (rotate bd)) (bd.length - x - 1) (bd.length - y - 1) =
            maskAt (rotate bd) (bd.length - y - 1) x := by
          have := maskAt_rotate (rotate bd) (bd.length - x - 1) (bd.length - y - 1)
            (by rw [l1]; omega) (by rw [l1]; omega)
          rw [l1] at this
          rwa [show bd.length - (bd.length - x - 1) - 1 = x by omega] at this
        have s4 : maskAt (rotate bd) (bd.length - y - 1) x = maskAt bd x y := by
          have := maskAt_rotate bd (bd.length - y - 1) x (by omega) hx
          rwa [show bd.length - (bd.length - y - 1) - 1 = y by omega] at this
        rw [s1, s2, s3, s4]
      · have hr4 : ((rotate (rotate (rotate (rotate bd)))).getD x []).length ≤ y := by
          rw [List.getD_eq_getElem _ [] (by rw [l4]; exact hx)]
          have := rotate_row_length (rotate (rotate (rotate bd))) x (by rw [rotate_length, l3]; exact hx)
          simp only [List.get_eq_getElem] at this
          rw [this, l3]
          omega
        have hbd : ((bd.getD x []).length ≤ y) := by
          rw [List.getD_eq_getElem _ [] hx]
          have := hsq bd[x] (by exact List.getElem_mem hx)
          rw [this]
          omega
        unfold maskAt
        rw [List.getD_eq_default _ _ hr4, List.getD_eq_default _ _ hbd]
    · rw [maskAt_col_oob _ _ _ (by rw [l4]; omega), maskAt_col_oob _ _ _ (by omega)]

/-- Witness for claim C8 at a concrete square mask. -/
theorem rotate_four_times_id_witness :
    (∀ r ∈ bdC8, r.length = bdC8.length) ∧
      rotate (rotate (rotate (rotate bdC8))) = bdC8 :=
  ⟨by decide, rotate_four_times_id bdC8 (by decide)⟩

/-- Witness for the amended claim C6 at concrete dimensions and weights. -/
theorem empty_board_score_amended_witness :
    (([(5 : ℚ), 0, 0].length = 2 + 1 ∧ [(1 : ℚ), 1, 1, 1, 1].length = 5 ∧
        [(7 : ℚ), 0, 0, 0, 0].length = 5) ∧
      compute_score ⟨2, 3, [5, 0, 0], [1, 1, 1, 1, 1], [7, 0, 0, 0, 0]⟩ (emptyGrid 2 3) =
        ((3 : ℕ) : ℚ) * ([(5 : ℚ), 0, 0].getD 0 0) -
          (((2 - 1 : ℕ)) : ℚ) * ([(7 : ℚ), 0, 0, 0, 0].getD 0 0)) :=
  ⟨⟨by decide, by decide, by decide⟩,
    empty_board_score_amended 2 3 [5, 0, 0] [1, 1, 1, 1, 1] [7, 0, 0, 0, 0]
      (by decide) (by decide) (by decide)⟩

lemma cells_safe_of_not_colliding (g : BGrid) (t : TminoData) (xp yp : ℤ)
    (h : is_colliding g t xp yp = false) :
    ∀ a b : ℕ, a < t.size → b < t.size → maskAt t.block_data a b = true →
      0 ≤ (a : ℤ) + xp ∧ (a : ℤ) + xp < (g.length : ℤ) ∧
      0 ≤ (b : ℤ) + yp ∧ (b : ℤ) + yp < ((g.headD []).length : ℤ) ∧
      cellB g ((a : ℤ) + xp).toNat ((b : ℤ) + yp).toNat = false := by
  intro a b ha hb hm
  simp only [is_colliding, List.any_eq_false, List.mem_range] at h
  have hA := h a ha
  rw [Bool.not_eq_true] at hA
  rw [List.any_eq_false] at hA
  have h2 := hA b (List.mem_range.mpr hb)
  simp only [hm, Bool.true_and, Bool.or_eq_true, decide_eq_true_eq, not_or,
    Bool.and_eq_true] at h2
  obtain ⟨⟨⟨⟨h3, h4⟩, h5⟩, h6⟩, h7⟩ := h2
  exact ⟨by omega, by omega, by omega, by omega, by simpa using h7⟩

lemma movesForX_mem (g : BGrid) (heights : List ℕ) (t : TminoData) (r : ℕ) :
    ∀ (xs : List ℤ) (y0 : ℤ) (acc : List (ℕ × ℤ × ℤ)) (m : ℕ × ℤ × ℤ),
      m ∈ (movesForX g heights t r xs y0 acc).1 →
      m ∈ acc ∨ (m.1 = r ∧ is_colliding g t m.2.1 m.2.2 = false) := by
  intro xs
  induction xs with
  | nil =>
    intro y0 acc m hm
    exact Or.inl hm
  | cons i rest ih =>
    intro y0 acc m hm
    simp only [movesForX] at hm
    rcases ih _ _ m hm with hin | hp
    · split at hin
      · exact Or.inl hin
      · rcases List.mem_append.mp hin with h1 | h2
        · exact Or.inl h1
        · have hme := List.mem_singleton.mp h2
          subst hme
          refine Or.inr ⟨rfl, ?_⟩
          simp only [Bool.not_eq_true] at *
          assumption
    · exact Or.inr hp

lemma foldl_moves_safe (g : BGrid) (heights : List ℕ) (table : ℕ → TminoData) :
    ∀ (rots : List ℕ) (acc : List (ℕ × ℤ × ℤ)),
      (∀ m ∈ acc, is_colliding g (table m.1) m.2.1 m.2.2 = false) →
      ∀ m ∈ rots.foldl
          (fun acc r => (movesForX g heights (table r) r
            (rangeZ (table r).min_x ((table r).max_x + 1)) 0 acc).1) acc,
        is_colliding g (table m.1) m.2.1 m.2.2 = false := by
  intro rots
  induction rots with
  | nil =>
    intro acc hacc m hm
    exact hacc m hm
  | cons r rest ih =>
    intro acc hacc m hm
    rw [List.foldl_cons] at hm
    refine ih _ ?_ m hm
    intro mq hmq
    rcases movesForX_mem g heights (table r) r _ _ _ mq hmq with h1 | h2
    · exact hacc mq h1
    · rw [h2.1]
      exact h2.2

/-- Claim C1: every triple `(rotation, x, y)` returned by
`compute_moves_available` denotes a placement whose occupied mask cells all
lie inside the board bounds `[0, W) × [0, H)` and none of which overlaps an
occupied grid cell. -/
theorem compute_moves_available_safe (W H : ℕ) (g : BGrid) (rotations : List ℕ)
    (table : ℕ → TminoData) (hg : g.length = W) (hW : 0 < W)
    (hcols : ∀ c ∈ g, c.length = H) :
    ∀ m ∈ compute_moves_available W H g rotations table,
      ∀ a b : ℕ, a < (table m.1).size → b < (table m.1).size →
        maskAt (table m.1).block_data a b = true →
        0 ≤ (a : ℤ) + m.2.1 ∧ (a : ℤ) + m.2.1 < (W : ℤ) ∧
        0 ≤ (b : ℤ) + m.2.2 ∧ (b : ℤ) + m.2.2 < (H : ℤ) ∧
        cellB g ((a : ℤ) + m.2.1).toNat ((b : ℤ) + m.2.2).toNat = false := by
  intro m hm a b ha hb hmask
  simp only [compute_moves_available] at hm
  have hQ : is_colliding g (table m.1) m.2.1 m.2.2 = false :=
    foldl_moves_safe g (compute_heightmap W H g) table rotations []
      (by intro mq hmq; simp at hmq) m hm
  have hsafe := cells_safe_of_not_colliding g (table m.1) m.2.1 m.2.2 hQ a b ha hb hmask
  have hlen : (g.length : ℤ) = (W : ℤ) := by exact_mod_cast congrArg Nat.cast hg
  have hhead : ((g.headD []).length : ℤ) = (H : ℤ) := by
    cases g with
    | nil =>
      simp at hg
      omega
    | cons c rest =>
      simp only [List.headD_cons]
      exact_mod_cast congrArg Nat.cast (hcols c (by simp))
  obtain ⟨s1, s2, s3, s4, s5⟩ := hsafe
  exact ⟨s1, by rw [← hlen]; exact s2, s3, by rw [← hhead]; exact s4, s5⟩

/-- Witness for claim C1 on a concrete empty 2 by 2 board and a one-cell
piece. -/
theorem compute_moves_available_safe_witness :
    (gC1.length = 2 ∧ 0 < 2 ∧ (∀ c ∈ gC1, c.length = 2)) ∧
      (∀ m ∈ compute_moves_available 2 2 gC1 [0] tableC1,
        ∀ a b : ℕ, a < (tableC1 m.1).size → b < (tableC1 m.1).size →
          maskAt (tableC1 m.1).block_data a b = true →
          0 ≤ (a : ℤ) + m.2.1 ∧ (a : ℤ) + m.2.1 < ((2 : ℕ) : ℤ) ∧
          0 ≤ (b : ℤ) + m.2.2 ∧ (b : ℤ) + m.2.2 < ((2 : ℕ) : ℤ) ∧
          cellB gC1 ((a : ℤ) + m.2.1).toNat ((b : ℤ) + m.2.2).toNat = false) :=
  ⟨⟨by decide, by decide, by decide⟩,
    compute_moves_available_safe 2 2 gC1 [0] tableC1 (by decide) (by decide) (by decide)⟩

lemma getD_set_self (l : List ℚ) (i : ℕ) (v : ℚ) (h : i < l.length) :
    (l.set i v).getD i 0 = v := by
  rw [List.getD_eq_getElem _ _ (by simpa using h)]
  simp [h]

lemma getD_set_ne (l : List ℚ) (i j : ℕ) (v : ℚ) (h : i ≠ j) :
    (l.set i v).getD j 0 = l.getD j 0 := by
  simp [List.getD_eq_getElem?_getD, List.getElem?_set_ne h]

lemma setSeq_length : ∀ (idxs : List ℕ) (l : List ℚ) (w : ℕ → ℚ) (k : ℕ),
    (setSeq l idxs w k).length = l.length := by
  intro idxs
  induction idxs with
  | nil =>
    intro l w k
    rfl
  | cons i is ih =>
    intro l w k
    rw [setSeq, ih, List.length_set]

lemma setSeq_range'_getD : ∀ (n s k : ℕ) (l : List ℚ) (w : ℕ → ℚ) (j : ℕ),
    (setSeq l (List.range' s n) w k).getD j 0 =
      if s ≤ j ∧ j < s + n ∧ j < l.length then w (k + (j - s)) else l.getD j 0 := by
  intro n
  induction n with
  | zero =>
    intro s k l w j
    rw [show List.range' s 0 = [] from rfl, show setSeq l [] w k = l from rfl,
      if_neg (by omega)]
  | succ m ih =>
    intro s k l w j
    rw [show List.range' s (m + 1) = s :: List.range' (s + 1) m from List.range'_succ s m 1,
      setSeq, ih (s + 1) (k + 1) (l.set s (w k)) w j]
    by_cases hjs : j = s
    · subst hjs
      rw [if_neg (by simp only [List.length_set]; omega)]
      by_cases hlen : j < l.length
      · rw [if_pos (by omega), getD_set_self l j (w k) hlen, Nat.sub_self, Nat.add_zero]
      · rw [if_neg (by omega), List.set_eq_of_length_le (by omega)]
    · by_cases hcond : s ≤ j ∧ j < s + (m + 1) ∧ j < l.length
      · rw [if_pos (by simp only [List.length_set]; omega), if_pos hcond]
        congr 1
        omega
      · rw [if_neg (by simp only [List.length_set]; omega), if_neg hcond,
          getD_set_ne l s j (w k) (Ne.symm hjs)]

lemma setSeq_range_getD (W k : ℕ) (l : List ℚ) (w : ℕ → ℚ) (j : ℕ) :
    (setSeq l (List.range W) w k).getD j 0 =
      if j < W ∧ j < l.length then w (k + j) else l.getD j 0 := by
  rw [List.range_eq_range', setSeq_range'_getD]
  by_cases h1 : 0 ≤ j ∧ j < 0 + W ∧ j < l.length
  · rw [if_pos h1, if_pos (by omega)]
    simp
  · rw [if_neg h1, if_neg (by omega)]

lemma mutateList_rate_one : ∀ (idxs : List ℕ) (l : List ℚ) (rs : RandState),
    (∀ n, rs.probs n ≤ 1) →
    mutateList 1 idxs l rs =
      (setSeq l idxs rs.wvals rs.wpos,
       ⟨rs.probs, rs.ppos + idxs.length, rs.ints, rs.ipos, rs.wvals,
        rs.wpos + idxs.length⟩) := by
  intro idxs
  induction idxs with
  | nil =>
    intro l rs hub
    cases rs
    simp [mutateList, setSeq]
  | cons i is ih =>
    intro l rs hub
    simp only [mutateList, drawProb, random_weight]
    rw [if_pos (hub _)]
    rw [ih (l.set i (rs.wvals rs.wpos))
      ⟨rs.probs, rs.ppos + 1, rs.ints, rs.ipos, rs.wvals, rs.wpos + 1⟩ hub]
    rw [show setSeq l (i :: is) rs.wvals rs.wpos =
      setSeq (l.set i (rs.wvals rs.wpos)) is rs.wvals (rs.wpos + 1) from rfl]
    refine congrArg₂ Prod.mk rfl ?_
    simp only [List.length_cons]
    congr 1 <;> omega

lemma mutateList_rate_zero : ∀ (idxs : List ℕ) (l : List ℚ) (rs : RandState),
    (∀ n, 0 < rs.probs n) →
    mutateList 0 idxs l rs =
      (l, ⟨rs.probs, rs.ppos + idxs.length, rs.ints, rs.ipos, rs.wvals, rs.wpos⟩) := by
  intro idxs
  induction idxs with
  | nil =>
    intro l rs hpos
    cases rs
    simp [mutateList]
  | cons i is ih =>
    intro l rs hpos
    simp only [mutateList, drawProb]
    rw [if_neg (by exact not_le.mpr (hpos _))]
    rw [ih l ⟨rs.probs, rs.ppos + 1, rs.ints, rs.ipos, rs.wvals, rs.wpos⟩ hpos]
    refine congrArg₂ Prod.mk rfl ?_
    simp only [List.length_cons]
    congr 1 <;> omega

/-- Claim C5 counterexample: with `grid_width = 1` the row-fill list has two
entries, yet `mutate`'s first loop runs over `range(grid_width)` only
(ai.py:190), so with rate `1.0`, original weights all `-1`, and every fresh
sample equal to `7`, the final row-fill entry keeps its original value `-1`
instead of being replaced by a fresh sample as the claim requires. -/
theorem mutate_full_rate_counterexample :
    (mutate aiC5 1 rsC5).1.row_filled_weights = [7, -1] ∧
      aiC5.row_filled_weights = [-1, -1] ∧ (7 : ℚ) ≠ -1 := by
  refine ⟨?_, rfl, by norm_num⟩
  norm_num [mutate, mutateList, drawProb, random_weight, aiC5, rsC5,
    hole_height_cap, column_diff_cap]

/-- Claim C5, amended: with the configured list lengths, `mutate` at rate
`1.0` (for any probability stream bounded by 1) replaces the first
`grid_width` row-fill weights and every hole-height and column-diff weight
with successive fresh samples, but leaves the final row-fill entry (index
`grid_width`) unchanged; and `mutate` at rate `0.0` changes nothing provided
every probability draw is strictly positive (the source compares with `<=`,
so a draw of exactly `0` - a possible value of `random.random()` - would
still trigger replacement). -/
theorem mutate_rate_bounds_amended (ai : TetrisAI) (rs : RandState)
    (hr : ai.row_filled_weights.length = ai.grid_width + 1)
    (hh : ai.hole_height_weights.length = hole_height_cap)
    (hd : ai.column_diff_weights.length = column_diff_cap)
    (hub : ∀ n, rs.probs n ≤ 1) (hpos : ∀ n, 0 < rs.probs n) :
    ((mutate ai 1 rs).1.row_filled_weights.length = ai.grid_width + 1 ∧
      (∀ i < ai.grid_width,
        (mutate ai 1 rs).1.row_filled_weights.getD i 0 = rs.wvals (rs.wpos + i)) ∧
      (mutate ai 1 rs).1.row_filled_weights.getD ai.grid_width 0 =
        ai.row_filled_weights.getD ai.grid_width 0 ∧
      (∀ i < hole_height_cap,
        (mutate ai 1 rs).1.hole_height_weights.getD i 0 =
          rs.wvals (rs.wpos + ai.grid_width + i)) ∧
      (∀ i < column_diff_cap,
        (mutate ai 1 rs).1.column_diff_weights.getD i 0 =
          rs.wvals (rs.wpos + ai.grid_width + hole_height_cap + i))) ∧
    (mutate ai 0 rs).1 = ai := by
  have e1 : mutateList 1 (List.range ai.grid_width) ai.row_filled_weights rs =
      (setSeq ai.row_filled_weights (List.range ai.grid_width) rs.wvals rs.wpos,
       ⟨rs.probs, rs.ppos + ai.grid_width, rs.ints, rs.ipos, rs.wvals,
        rs.wpos + ai.grid_width⟩) := by
    rw [mutateList_rate_one _ _ _ hub]
    simp [List.length_range]
  have e2 : mutateList 1 (List.range hole_height_cap) ai.hole_height_weights
      ⟨rs.probs, rs.ppos + ai.grid_width, rs.ints, rs.ipos, rs.wvals,
       rs.wpos + ai.grid_width⟩ =
      (setSeq ai.hole_height_weights (List.range hole_height_cap) rs.wvals
        (rs.wpos + ai.grid_width),
       ⟨rs.probs, rs.ppos + ai.grid_width + hole_height_cap, rs.ints, rs.ipos,
        rs.wvals, rs.wpos + ai.grid_width + hole_height_cap⟩) := by
    rw [mutateList_rate_one (List.range hole_height_cap) ai.hole_height_weights
      ⟨rs.probs, rs.ppos + ai.grid_width, rs.ints, rs.ipos, rs.wvals,
       rs.wpos + ai.grid_width⟩ (fun n => hub n)]
    simp [List.length_range]
  have e3 : mutateList 1 (List.range column_diff_cap) ai.column_diff_weights
      ⟨rs.probs, rs.ppos + ai.grid_width + hole_height_cap, rs.ints, rs.ipos,
       rs.wvals, rs.wpos + ai.grid_width + hole_height_cap⟩ =
      (setSeq ai.column_diff_weights (List.range column_diff_cap) rs.wvals
        (rs.wpos + ai.grid_width + hole_height_cap),
       ⟨rs.probs, rs.ppos + ai.grid_width + hole_height_cap + column_diff_cap,
        rs.ints, rs.ipos, rs.wvals,
        rs.wpos + ai.grid_width + hole_height_cap + column_diff_cap⟩) := by
    rw [mutateList_rate_one (List.range column_diff_cap) ai.column_diff_weights
      ⟨rs.probs, rs.ppos + ai.grid_width + hole_height_cap, rs.ints, rs.ipos,
       rs.wvals, rs.wpos + ai.grid_width + hole_height_cap⟩ (fun n => hub n)]
    simp [List.length_range]
  have z1 : mutateList 0 (List.range ai.grid_width) ai.row_filled_weights rs =
      (ai.row_filled_weights,
       ⟨rs.probs, rs.ppos + ai.grid_width, rs.ints, rs.ipos, rs.wvals, rs.wpos⟩) := by
    rw [mutateList_rate_zero _ _ _ hpos]
    simp [List.length_range]
  have z2 : mutateList 0 (List.range hole_height_cap) ai.hole_height_weights
      ⟨rs.probs, rs.ppos + ai.grid_width, rs.ints, rs.ipos, rs.wvals, rs.wpos⟩ =
      (ai.hole_height_weights,
       ⟨rs.probs, rs.ppos + ai.grid_width + hole_height_cap, rs.ints, rs.ipos,
        rs.wvals, rs.wpos⟩) := by
    rw [mutateList_rate_zero (List.range hole_height_cap) ai.hole_height_weights
      ⟨rs.probs, rs.ppos + ai.grid_width, rs.ints, rs.ipos, rs.wvals, rs.wpos⟩
      (fun n => hpos n)]
    simp [List.length_range]
  have z3 : mutateList 0 (List.range column_diff_cap) ai.column_diff_weights
      ⟨rs.probs, rs.ppos + ai.grid_width + hole_height_cap, rs.ints, rs.ipos,
       rs.wvals, rs.wpos⟩ =
      (ai.column_diff_weights,
       ⟨rs.probs, rs.ppos + ai.grid_width + hole_height_cap + column_diff_cap,
        rs.ints, rs.ipos, rs.wvals, rs.wpos⟩) := by
    rw [mutateList_rate_zero (List.range column_diff_cap) ai.column_diff_weights
      ⟨rs.probs, rs.ppos + ai.grid_width + hole_height_cap, rs.ints, rs.ipos,
       rs.wvals, rs.wpos⟩ (fun n => hpos n)]
    simp [List.length_range]
  constructor
  · simp only [mutate, e1, e2, e3]
    refine ⟨?_, fun i hi => ?_, ?_, fun i hi => ?_, fun i hi => ?_⟩
    · rw [setSeq_length, hr]
    · rw [setSeq_range_getD, if_pos (by omega)]
    · rw [setSeq_range_getD, if_neg (by omega)]
    · rw [setSeq_range_getD, if_pos (by rw [hh]; omega)]
    · rw [setSeq_range_getD, if_pos (by rw [hd]; omega)]
  · simp only [mutate, z1, z2, z3]

/-- Witness for the amended claim C5 at a concrete AI and random source. -/
theorem mutate_rate_bounds_amended_witness :
    ((mutate aiW5 1 rsW5).1.row_filled_weights.length = aiW5.grid_width + 1 ∧
      (∀ i < aiW5.grid_width,
        (mutate aiW5 1 rsW5).1.row_filled_weights.getD i 0 = rsW5.wvals (rsW5.wpos + i)) ∧
      (mutate aiW5 1 rsW5).1.row_filled_weights.getD aiW5.grid_width 0 =
        aiW5.row_filled_weights.getD aiW5.grid_width 0 ∧
      (∀ i < hole_height_cap,
        (mutate aiW5 1 rsW5).1.hole_height_weights.getD i 0 =
          rsW5.wvals (rsW5.wpos + aiW5.grid_width + i)) ∧
      (∀ i < column_diff_cap,
        (mutate aiW5 1 rsW5).1.column_diff_weights.getD i 0 =
          rsW5.wvals (rsW5.wpos + aiW5.grid_width + hole_height_cap + i))) ∧
    (mutate aiW5 0 rsW5).1 = aiW5 :=
  mutate_rate_bounds_amended aiW5 rsW5 (by decide) (by decide) (by decide)
    (fun n => by norm_num [rsW5]) (fun n => by norm_num [rsW5])

/-- Claim C9 counterexample: crossover of two parents whose weight sequences
are all empty (equal lengths, `0`) hands empty lists to the `TetrisAI`
constructor, which regenerates them with fresh random samples (ai.py:21-29):
the child's hole-height sequence has 5 freshly generated entries, none of
which is an element of either parent at the same index. -/
theorem crossover_empty_counterexample :
    (crossover aiC9 aiC9 rsC5).1.hole_height_weights.length = 5 ∧
      aiC9.hole_height_weights.length = 0 := by
  constructor
  · norm_num [crossover, randintLe, TetrisAI.init, drawWeights, random_weight,
      aiC9, rsC5, hole_height_cap, column_diff_cap]
  · rfl

lemma init_of_ne_nil (W H : ℕ) (wr wh wd : List ℚ) (rs : RandState)
    (h1 : wr ≠ []) (h2 : wh ≠ []) (h3 : wd ≠ []) :
    TetrisAI.init W H wr wh wd rs = (⟨W, H, wr, wh, wd⟩, rs) := by
  simp [TetrisAI.init, List.length_eq_zero, h1, h2, h3]

lemma take_drop_getD (a b : List ℚ) (s j : ℕ) (hs : s ≤ a.length)
    (hab : a.length = b.length) (hj : j < b.length) :
    (a.take s ++ b.drop s).getD j 0 =
      if j < s then a.getD j 0 else b.getD j 0 := by
  by_cases hjs : j < s
  · rw [if_pos hjs, getD_append_lt _ _ _ _ (by rw [List.length_take]; omega)]
    rw [List.getD_eq_getElem _ _ (by rw [List.length_take]; omega),
      List.getD_eq_getElem _ _ (by omega)]
    simp
  · rw [if_neg hjs]
    have hlen : (a.take s).length = s := by
      rw [List.length_take]
      omega
    rw [List.getD_eq_getElem?_getD, List.getElem?_append_right (by omega), hlen,
      List.getElem?_drop, show s + (j - s) = j by omega, ← List.getD_eq_getElem?_getD]

/-- Claim C9, amended: for parents with equal-length, nonempty weight
sequences (as all AIs built by the program have), every element of every
sequence of `crossover(A, B)`'s result equals the element at the same index
of the corresponding sequence of `A` or of `B`: per sequence there is a
split index below which elements come from `A` and at or after which they
come from `B`, with no blended or freshly generated values.  Nonemptiness is
required because the `TetrisAI` constructor regenerates an empty sequence
with fresh random weights. -/
theorem crossover_single_point_amended (A B : TetrisAI) (rs : RandState)
    (h1 : A.row_filled_weights.length = B.row_filled_weights.length)
    (h2 : A.hole_height_weights.length = B.hole_height_weights.length)
    (h3 : A.column_diff_weights.length = B.column_diff_weights.length)
    (n1 : A.row_filled_weights ≠ []) (n2 : A.hole_height_weights ≠ [])
    (n3 : A.column_diff_weights ≠ []) :
    ∃ s1 ≤ B.row_filled_weights.length, ∃ s2 ≤ B.hole_height_weights.length,
      ∃ s3 ≤ B.column_diff_weights.length,
      (crossover A B rs).1.row_filled_weights.length =
        B.row_filled_weights.length ∧
      (crossover A B rs).1.hole_height_weights.length =
        B.hole_height_weights.length ∧
      (crossover A B rs).1.column_diff_weights.length =
        B.column_diff_weights.length ∧
      (∀ j < B.row_filled_weights.length,
        (crossover A B rs).1.row_filled_weights.getD j 0 =
          if j < s1 then A.row_filled_weights.getD j 0
          else B.row_filled_weights.getD j 0) ∧
      (∀ j < B.hole_height_weights.length,
        (crossover A B rs).1.hole_height_weights.getD j 0 =
          if j < s2 then A.hole_height_weights.getD j 0
          else B.hole_height_weights.getD j 0) ∧
      (∀ j < B.column_diff_weights.length,
        (crossover A B rs).1.column_diff_weights.getD j 0 =
          if j < s3 then A.column_diff_weights.getD j 0
          else B.column_diff_weights.getD j 0) := by
  have hp1 : 0 < A.row_filled_weights.length := List.length_pos.mpr n1
  have hp2 : 0 < A.hole_height_weights.length := List.length_pos.mpr n2
  have hp3 : 0 < A.column_diff_weights.length := List.length_pos.mpr n3
  have hk1 : rs.ints rs.ipos % (B.row_filled_weights.length + 1) ≤
      B.row_filled_weights.length :=
    Nat.le_of_lt_succ (Nat.mod_lt _ (Nat.succ_pos _))
  have hk2 : rs.ints (rs.ipos + 1) % (B.hole_height_weights.length + 1) ≤
      B.hole_height_weights.length :=
    Nat.le_of_lt_succ (Nat.mod_lt _ (Nat.succ_pos _))
  have hk3 : rs.ints (rs.ipos + 1 + 1) % (B.column_diff_weights.length + 1) ≤
      B.column_diff_weights.length :=
    Nat.le_of_lt_succ (Nat.mod_lt _ (Nat.succ_pos _))
  have hne1 : A.row_filled_weights.take
        (rs.ints rs.ipos % (B.row_filled_weights.length + 1)) ++
      B.row_filled_weights.drop
        (rs.ints rs.ipos % (B.row_filled_weights.length + 1)) ≠ [] := by
    apply List.ne_nil_of_length_pos
    rw [List.length_append, List.length_take, List.length_drop]
    omega
  have hne2 : A.hole_height_weights.take
        (rs.ints (rs.ipos + 1) % (B.hole_height_weights.length + 1)) ++
      B.hole_height_weights.drop
        (rs.ints (rs.ipos + 1) % (B.hole_height_weights.length + 1)) ≠ [] := by
    apply List.ne_nil_of_length_pos
    rw [List.length_append, List.length_take, List.length_drop]
    omega
  have hne3 : A.column_diff_weights.take
        (rs.ints (rs.ipos + 1 + 1) % (B.column_diff_weights.length + 1)) ++
      B.column_diff_weights.drop
        (rs.ints (rs.ipos + 1 + 1) % (B.column_diff_weights.length + 1)) ≠ [] := by
    apply List.ne_nil_of_length_pos
    rw [List.length_append, List.length_take, List.length_drop]
    omega
  have hfst : (crossover A B rs).1 =
      ⟨B.grid_width, B.grid_height,
        A.row_filled_weights.take
            (rs.ints rs.ipos % (B.row_filled_weights.length + 1)) ++
          B.row_filled_weights.drop
            (rs.ints rs.ipos % (B.row_filled_weights.length + 1)),
        A.hole_height_weights.take
            (rs.ints (rs.ipos + 1) % (B.hole_height_weights.length + 1)) ++
          B.hole_height_weights.drop
            (rs.ints (rs.ipos + 1) % (B.hole_height_weights.length + 1)),
        A.column_diff_weights.take
            (rs.ints (rs.ipos + 1 + 1) % (B.column_diff_weights.length + 1)) ++
          B.column_diff_weights.drop
            (rs.ints (rs.ipos + 1 + 1) % (B.column_diff_weights.length + 1))⟩ := by
    simp only [crossover, randintLe]
    rw [init_of_ne_nil _ _ _ _ _ _ hne1 hne2 hne3]
  refine ⟨_, hk1, _, hk2, _, hk3, ?_, ?_, ?_, fun j hj => ?_, fun j hj => ?_,
    fun j hj => ?_⟩
  · rw [hfst]
    simp only [List.length_append, List.length_take, List.length_drop]
    omega
  · rw [hfst]
    simp only [List.length_append, List.length_take, List.length_drop]
    omega
  · rw [hfst]
    simp only [List.length_append, List.length_take, List.length_drop]
    omega
  · rw [hfst]
    exact take_drop_getD _ _ _ _ (by omega) h1 hj
  · rw [hfst]
    exact take_drop_getD _ _ _ _ (by omega) h2 hj
  · rw [hfst]
    exact take_drop_getD _ _ _ _ (by omega) h3 hj

/-- Witness for the amended claim C9 at concrete parents and random source. -/
theorem crossover_single_point_amended_witness :
    (aiC5.row_filled_weights.length = aiW5.row_filled_weights.length ∧
      aiC5.hole_height_weights.length = aiW5.hole_height_weights.length ∧
      aiC5.column_diff_weights.length = aiW5.column_diff_weights.length ∧
      aiC5.row_filled_weights ≠ [] ∧ aiC5.hole_height_weights ≠ [] ∧
      aiC5.column_diff_weights ≠ []) ∧
    (∃ s1 ≤ aiW5.row_filled_weights.length, ∃ s2 ≤ aiW5.hole_height_weights.length,
      ∃ s3 ≤ aiW5.column_diff_weights.length,
      (crossover aiC5 aiW5 rsW5).1.row_filled_weights.length =
        aiW5.row_filled_weights.length ∧
      (crossover aiC5 aiW5 rsW5).1.hole_height_weights.length =
        aiW5.hole_height_weights.length ∧
      (crossover aiC5 aiW5 rsW5).1.column_diff_weights.length =
        aiW5.column_diff_weights.length ∧
      (∀ j < aiW5.row_filled_weights.length,
        (crossover aiC5 aiW5 rsW5).1.row_filled_weights.getD j 0 =
          if j < s1 then aiC5.row_filled_weights.getD j 0
          else aiW5.row_filled_weights.getD j 0) ∧
      (∀ j < aiW5.hole_height_weights.length,
        (crossover aiC5 aiW5 rsW5).1.hole_height_weights.getD j 0 =
          if j < s2 then aiC5.hole_height_weights.getD j 0
          else aiW5.hole_height_weights.getD j 0) ∧
      (∀ j < aiW5.column_diff_weights.length,
        (crossover aiC5 aiW5 rsW5).1.column_diff_weights.getD j 0 =
          if j < s3 then aiC5.column_diff_weights.getD j 0
          else aiW5.column_diff_weights.getD j 0)) :=
  ⟨⟨by decide, by decide, by decide, by decide, by decide, by decide⟩,
    crossover_single_point_amended aiC5 aiW5 rsW5 (by decide) (by decide)
      (by decide) (by decide) (by decide) (by decide)⟩

lemma getD_append_right {α : Type} (a b : List α) (d : α) (i : ℕ) (h : a.length ≤ i) :
    (a ++ b).getD i d = b.getD (i - a.length) d := by
  rw [List.getD_eq_getElem?_getD, List.getElem?_append_right h,
    ← List.getD_eq_getElem?_getD]

lemma clearCol_getD (H : ℕ) (c : List ℕ) (r : ℕ) (hc : c.length = H) (hr : r < H)
    (y : ℕ) :
    ((0 :: c.take r) ++ c.drop (r + 1)).getD y 0 =
      if y = 0 then 0 else if y ≤ r then c.getD (y - 1) 0 else c.getD y 0 := by
  cases y with
  | zero => simp
  | succ z =>
    rw [if_neg (Nat.succ_ne_zero z), List.cons_append, List.getD_cons_succ]
    by_cases hzr : z < r
    · rw [if_pos (by omega), getD_append_lt _ _ _ _ (by rw [List.length_take]; omega)]
      rw [List.getD_eq_getElem _ _ (by rw [List.length_take]; omega),
        List.getD_eq_getElem _ _ (by omega)]
      simp
    · rw [if_neg (by omega),
        getD_append_right _ _ _ _ (by rw [List.length_take]; omega)]
      rw [List.length_take, show min r c.length = r by omega,
        List.getD_eq_getElem?_getD, List.getElem?_drop, ← List.getD_eq_getElem?_getD]
      congr 1
      omega

lemma cellI_setCellI_ne (g : IGrid) (xq yq v x y : ℕ) (h : x ≠ xq ∨ y ≠ yq) :
    cellI (setCellI g xq yq v) x y = cellI g x y := by
  unfold cellI setCellI
  by_cases hx : x = xq
  · subst hx
    have hy : y ≠ yq := h.resolve_left (by simp)
    by_cases hlt : x < g.length
    · have e1 : (g.set x ((g.getD x []).set yq v)).getD x [] =
          (g.getD x []).set yq v := by
        rw [List.getD_eq_getElem?_getD, List.getElem?_set_eq hlt]
        rfl
      rw [e1, List.getD_eq_getElem?_getD,
        List.getElem?_set_ne (fun he => hy he.symm), ← List.getD_eq_getElem?_getD]
    · rw [List.set_eq_of_length_le (by omega)]
  · have e1 : (g.set xq ((g.getD xq []).set yq v)).getD x [] = g.getD x [] := by
      rw [List.getD_eq_getElem?_getD, List.getElem?_set_ne (fun he => hx he.symm),
        ← List.getD_eq_getElem?_getD]
    rw [e1]

lemma foldl_preserve_mem {α β : Type} (P : β → Prop) (f : β → α → β) :
    ∀ (l : List α), (∀ b a, a ∈ l → P b → P (f b a)) →
      ∀ b, P b → P (l.foldl f b) := by
  intro l
  induction l with
  | nil =>
    intro _ b hb
    exact hb
  | cons a rest ih =>
    intro hf b hb
    rw [List.foldl_cons]
    exact ih (fun bq aq haq hbq => hf bq aq (List.mem_cons_of_mem a haq) hbq) _
      (hf b a (List.mem_cons_self a rest) hb)

lemma all_congr_mem {α : Type} (xs : List α) (pb qb : α → Bool)
    (h : ∀ u ∈ xs, pb u = qb u) : xs.all pb = xs.all qb := by
  induction xs with
  | nil => rfl
  | cons u rest ih =>
    simp only [List.all_cons]
    rw [h u (by simp), ih fun uq huq => h uq (by simp [huq])]

lemma setCellI_shape (W H : ℕ) (g : IGrid) (x y v : ℕ)
    (hg : g.length = W ∧ ∀ c ∈ g, c.length = H) :
    (setCellI g x y v).length = W ∧ ∀ c ∈ setCellI g x y v, c.length = H := by
  constructor
  · rw [setCellI, List.length_set]
    exact hg.1
  · intro c hc
    by_cases hx : x < g.length
    · rcases List.mem_or_eq_of_mem_set hc with h1 | h2
      · exact hg.2 c h1
      · subst h2
        rw [List.length_set]
        refine hg.2 _ ?_
        rw [List.getD_eq_getElem _ _ hx]
        exact List.getElem_mem hx
    · rw [setCellI, List.set_eq_of_length_le (by omega)] at hc
      exact hg.2 c hc

lemma writeTmino_shape (W H : ℕ) (t : TminoData) (xp yp : ℤ) (g : IGrid)
    (hg : g.length = W ∧ ∀ c ∈ g, c.length = H) :
    (writeTmino W H t xp yp g).length = W ∧
      ∀ c ∈ writeTmino W H t xp yp g, c.length = H := by
  refine foldl_preserve_mem
    (fun gq => gq.length = W ∧ ∀ c ∈ gq, c.length = H) _ _
    (fun g1 a _ hg1 => ?_) g hg
  refine foldl_preserve_mem
    (fun gq => gq.length = W ∧ ∀ c ∈ gq, c.length = H) _ _
    (fun g2 b _ hg2 => ?_) g1 hg1
  split_ifs with hm hoob
  · exact hg2
  · exact setCellI_shape W H g2 _ _ _ hg2
  · exact hg2

lemma writeTmino_cell_outside (W H : ℕ) (t : TminoData) (xp yp : ℤ) (g : IGrid)
    (x y : ℕ) (hout : (y : ℤ) < yp ∨ yp + (t.size : ℤ) ≤ (y : ℤ)) :
    cellI (writeTmino W H t xp yp g) x y = cellI g x y := by
  refine foldl_preserve_mem (fun gq => cellI gq x y = cellI g x y) _ _
    (fun g1 a _ hg1 => ?_) g rfl
  refine foldl_preserve_mem (fun gq => cellI gq x y = cellI g x y) _ _
    (fun g2 b hb hg2 => ?_) g1 hg1
  split_ifs with hm hoob
  · exact hg2
  · show cellI (setCellI g2 ((a : ℤ) + xp).toNat ((b : ℤ) + yp).toNat t.id) x y =
      cellI g x y
    rw [cellI_setCellI_ne]
    · exact hg2
    · right
      intro he
      push_neg at hoob
      have hb4 : 0 ≤ (b : ℤ) + yp := by omega
      have hyeq : (y : ℤ) = (b : ℤ) + yp := by
        rw [he]
        exact Int.toNat_of_nonneg hb4
      have hbs : b < t.size := List.mem_range.mp hb
      omega
  · exact hg2

lemma rowFull_congr (W : ℕ) (g1 g2 : IGrid) (y1 y2 : ℕ)
    (h : ∀ x < W, cellI g1 x y1 = cellI g2 x y2) :
    rowFull W g1 y1 = rowFull W g2 y2 := by
  unfold rowFull
  exact all_congr_mem _ _ _ fun a ha => by rw [h a (List.mem_range.mp ha)]

lemma clearRowOp_shape (W H : ℕ) (g : IGrid) (r : ℕ) (hr : r < H)
    (hg : g.length = W ∧ ∀ c ∈ g, c.length = H) :
    (clearRowOp g r).length = W ∧ ∀ c ∈ clearRowOp g r, c.length = H := by
  constructor
  · rw [clearRowOp, List.length_map]
    exact hg.1
  · intro c hc
    rw [clearRowOp] at hc
    obtain ⟨c0, hc0, rfl⟩ := List.mem_map.mp hc
    have hl := hg.2 c0 hc0
    simp only [List.length_append, List.length_cons, List.length_take,
      List.length_drop]
    omega

lemma cellI_clearRowOp (H : ℕ) (g : IGrid) (r : ℕ)
    (hcols : ∀ c ∈ g, c.length = H) (hr : r < H) (x y : ℕ) :
    cellI (clearRowOp g r) x y =
      if y = 0 then 0 else if y ≤ r then cellI g x (y - 1) else cellI g x y := by
  unfold cellI clearRowOp
  by_cases hx : x < g.length
  · have e1 : (g.map fun c => (0 :: c.take r) ++ c.drop (r + 1)).getD x [] =
        (0 :: (g.getD x []).take r) ++ (g.getD x []).drop (r + 1) := by
      rw [List.getD_eq_getElem _ _ (by simpa using hx), List.getElem_map,
        List.getD_eq_getElem _ _ hx]
    rw [e1, clearCol_getD H _ r
      (hcols _ (by rw [List.getD_eq_getElem _ _ hx]; exact List.getElem_mem hx)) hr y]
  · have e1 : (g.map fun c => (0 :: c.take r) ++ c.drop (r + 1)).getD x [] = [] :=
      List.getD_eq_default _ _ (by simpa using not_lt.mp hx)
    have e2 : g.getD x [] = [] := List.getD_eq_default _ _ (not_lt.mp hx)
    rw [e1, e2]
    split_ifs <;> rfl

lemma rowFull_clearRowOp (W H : ℕ) (g : IGrid) (r : ℕ)
    (hcols : ∀ c ∈ g, c.length = H) (hr : r < H) (hW : 0 < W) (y : ℕ) :
    rowFull W (clearRowOp g r) y =
      if y = 0 then false else if y ≤ r then rowFull W g (y - 1)
      else rowFull W g y := by
  by_cases hy0 : y = 0
  · subst hy0
    rw [if_pos rfl]
    rw [show rowFull W (clearRowOp g r) 0 =
      (List.range W).all fun x => decide (cellI (clearRowOp g r) x 0 ≠ 0) from rfl]
    rw [all_congr_mem _ _ (fun _ => false) fun a _ => by
      rw [cellI_clearRowOp H g r hcols hr a 0, if_pos rfl]
      simp]
    simp [List.all_eq_true]
    exact ⟨0, hW⟩
  · rw [if_neg hy0]
    by_cases hyr : y ≤ r
    · rw [if_pos hyr]
      exact rowFull_congr W _ _ y (y - 1) fun x _ => by
        rw [cellI_clearRowOp H g r hcols hr x y, if_neg hy0, if_pos hyr]
    · rw [if_neg hyr]
      exact rowFull_congr W _ _ y y fun x _ => by
        rw [cellI_clearRowOp H g r hcols hr x y, if_neg hy0, if_neg hyr]

lemma countP_congr_mem {α : Type} (l : List α) (p q : α → Bool)
    (h : ∀ a ∈ l, p a = q a) : l.countP p = l.countP q := by
  induction l with
  | nil => rfl
  | cons a rest ih =>
    rw [List.countP_cons, List.countP_cons, h a (by simp),
      ih fun aq haq => h aq (by simp [haq])]

lemma range_split (r H : ℕ) (h : r + 1 ≤ H) :
    List.range H =
      List.range (r + 1) ++ (List.range (H - (r + 1))).map fun k => (r + 1) + k := by
  conv_lhs => rw [show H = (r + 1) + (H - (r + 1)) by omega]
  exact List.range_add (r + 1) (H - (r + 1))

lemma countFullRows_clearRowOp (W H : ℕ) (g : IGrid) (r : ℕ)
    (hcols : ∀ c ∈ g, c.length = H) (hr : r < H) (hW : 0 < W)
    (hfr : rowFull W g r = true)
    (hupper : ∀ y, r < y → y < H → rowFull W g y = false) :
    countFullRows W H (clearRowOp g r) + 1 = countFullRows W H g := by
  unfold countFullRows
  rw [range_split r H (by omega), List.countP_append, List.countP_append]
  have hupg : List.countP (fun y => rowFull W g y)
      ((List.range (H - (r + 1))).map fun k => (r + 1) + k) = 0 := by
    rw [List.countP_map]
    refine List.countP_eq_zero.mpr fun k hk => ?_
    have hkr := List.mem_range.mp hk
    simp only [Function.comp]
    rw [hupper ((r + 1) + k) (by omega) (by omega)]
    simp
  have hupc : List.countP (fun y => rowFull W (clearRowOp g r) y)
      ((List.range (H - (r + 1))).map fun k => (r + 1) + k) = 0 := by
    rw [List.countP_map]
    refine List.countP_eq_zero.mpr fun k hk => ?_
    have hkr := List.mem_range.mp hk
    simp only [Function.comp]
    rw [rowFull_clearRowOp W H g r hcols hr hW ((r + 1) + k), if_neg (by omega),
      if_neg (by omega), hupper ((r + 1) + k) (by omega) (by omega)]
    simp
  rw [hupg, hupc]
  have hlc : List.countP (fun y => rowFull W (clearRowOp g r) y)
      (List.range (r + 1)) = List.countP (fun y => rowFull W g y) (List.range r) := by
    rw [List.range_succ_eq_map, List.countP_cons, List.countP_map]
    rw [rowFull_clearRowOp W H g r hcols hr hW 0, if_pos rfl]
    rw [countP_congr_mem _ _ (fun z => rowFull W g z) fun z hz => by
      have hzr := List.mem_range.mp hz
      simp only [Function.comp]
      rw [rowFull_clearRowOp W H g r hcols hr hW (Nat.succ z),
        if_neg (Nat.succ_ne_zero z), if_pos (by omega)]
      rfl]
    simp
  have hlg : List.countP (fun y => rowFull W g y) (List.range (r + 1)) =
      List.countP (fun y => rowFull W g y) (List.range r) + 1 := by
    rw [List.range_succ, List.countP_append]
    simp [List.countP_cons, hfr]
  rw [hlc, hlg]

lemma specCleared_clearRowOp (W H : ℕ) (g : IGrid) (r : ℕ)
    (hcols : ∀ c ∈ g, c.length = H) (hr : r < H) (hW : 0 < W)
    (hfr : rowFull W g r = true)
    (hupper : ∀ y, r < y → y < H → rowFull W g y = false) :
    specCleared W H (clearRowOp g r) = specCleared W H g := by
  have hcf := countFullRows_clearRowOp W H g r hcols hr hW hfr hupper
  have hFL : (List.range H).filter (fun y => !rowFull W (clearRowOp g r) y) =
      0 :: (((List.range r).filter fun z => !rowFull W g z).map Nat.succ ++
        ((List.range (H - (r + 1))).map fun k => (r + 1) + k)) := by
    rw [range_split r H (by omega), List.filter_append]
    have h1 : (List.range (r + 1)).filter (fun y => !rowFull W (clearRowOp g r) y) =
        0 :: ((List.range r).filter fun z => !rowFull W g z).map Nat.succ := by
      rw [List.range_succ_eq_map, List.filter_cons]
      rw [show (!rowFull W (clearRowOp g r) 0) = true by
        rw [rowFull_clearRowOp W H g r hcols hr hW 0, if_pos rfl]; rfl]
      rw [if_pos rfl, List.filter_map]
      refine congrArg _ (congrArg _ (List.filter_congr fun z hz => ?_))
      have hzr := List.mem_range.mp hz
      simp only [Function.comp]
      rw [rowFull_clearRowOp W H g r hcols hr hW (Nat.succ z),
        if_neg (Nat.succ_ne_zero z), if_pos (by omega)]
      rfl
    have h2 : ((List.range (H - (r + 1))).map fun k => (r + 1) + k).filter
        (fun y => !rowFull W (clearRowOp g r) y) =
        (List.range (H - (r + 1))).map fun k => (r + 1) + k := by
      refine List.filter_eq_self.mpr fun y hy => ?_
      obtain ⟨k, hk, rfl⟩ := List.mem_map.mp hy
      have hkr := List.mem_range.mp hk
      rw [rowFull_clearRowOp W H g r hcols hr hW ((r + 1) + k), if_neg (by omega),
        if_neg (by omega), hupper ((r + 1) + k) (by omega) (by omega)]
      rfl
    rw [h1, h2, List.cons_append]
  have hFR : (List.range H).filter (fun y => !rowFull W g y) =
      ((List.range r).filter fun z => !rowFull W g z) ++
        ((List.range (H - (r + 1))).map fun k => (r + 1) + k) := by
    rw [range_split r H (by omega), List.filter_append]
    have h1 : (List.range (r + 1)).filter (fun y => !rowFull W g y) =
        (List.range r).filter fun z => !rowFull W g z := by
      rw [List.range_succ, List.filter_append, List.filter_cons]
      rw [show (!rowFull W g r) = false by rw [hfr]; rfl]
      simp
    have h2 : ((List.range (H - (r + 1))).map fun k => (r + 1) + k).filter
        (fun y => !rowFull W g y) =
        (List.range (H - (r + 1))).map fun k => (r + 1) + k := by
      refine List.filter_eq_self.mpr fun y hy => ?_
      obtain ⟨k, hk, rfl⟩ := List.mem_map.mp hy
      have hkr := List.mem_range.mp hk
      rw [hupper ((r + 1) + k) (by omega) (by omega)]
      rfl
    rw [h1, h2]
  rw [specCleared, specCleared]
  show (g.map fun c => (0 :: c.take r) ++ c.drop (r + 1)).map _ = _
  rw [List.map_map]
  refine List.map_congr_left fun c hc => ?_
  have hlc := hcols c hc
  simp only [Function.comp]
  rw [hFL, hFR]
  rw [List.map_cons, List.map_append, List.map_append, List.map_map, List.map_map,
    List.map_map]
  have hv0 : ((0 :: c.take r) ++ c.drop (r + 1)).getD 0 0 = 0 := by
    rw [clearCol_getD H c r hlc hr 0]
    rfl
  have hvZ : ((List.range r).filter fun z => !rowFull W g z).map
      ((fun y => ((0 :: c.take r) ++ c.drop (r + 1)).getD y 0) ∘ Nat.succ) =
      ((List.range r).filter fun z => !rowFull W g z).map fun z => c.getD z 0 := by
    refine List.map_congr_left fun z hz => ?_
    have hzr := List.mem_range.mp (List.mem_of_mem_filter hz)
    simp only [Function.comp]
    rw [clearCol_getD H c r hlc hr (Nat.succ z), if_neg (Nat.succ_ne_zero z),
      if_pos (by omega)]
    rfl
  have hvU : (List.range (H - (r + 1))).map
      ((fun y => ((0 :: c.take r) ++ c.drop (r + 1)).getD y 0) ∘ fun k => (r + 1) + k) =
      (List.range (H - (r + 1))).map ((fun y => c.getD y 0) ∘ fun k => (r + 1) + k) := by
    refine List.map_congr_left fun k hk => ?_
    simp only [Function.comp]
    rw [clearCol_getD H c r hlc hr ((r + 1) + k), if_neg (by omega), if_neg (by omega)]
  rw [hv0, hvZ, hvU]
  rw [show (0 : ℕ) :: (((List.range r).filter fun z => !rowFull W g z).map
        (fun z => c.getD z 0) ++
      (List.range (H - (r + 1))).map ((fun y => c.getD y 0) ∘ fun k => (r + 1) + k)) =
    [0] ++ (((List.range r).filter fun z => !rowFull W g z).map (fun z => c.getD z 0) ++
      (List.range (H - (r + 1))).map ((fun y => c.getD y 0) ∘ fun k => (r + 1) + k))
    from rfl]
  rw [← List.append_assoc, ← List.replicate_succ', hcf]

lemma map_getD_range (H : ℕ) (c : List ℕ) (hc : c.length = H) :
    (List.range H).map (fun y => c.getD y 0) = c := by
  refine List.ext_getElem (by simp [hc]) fun i h1 h2 => ?_
  simp only [List.getElem_map, List.getElem_range]
  rw [List.getD_eq_getElem _ _ (by omega)]

lemma specCleared_no_full (W H : ℕ) (g : IGrid)
    (hnf : ∀ y < H, rowFull W g y = false) (hcols : ∀ c ∈ g, c.length = H) :
    specCleared W H g = g := by
  unfold specCleared
  rw [show countFullRows W H g = 0 from List.countP_eq_zero.mpr fun y hy => by
    rw [hnf y (List.mem_range.mp hy)]
    simp]
  rw [List.filter_eq_self.mpr fun y hy => by
    rw [hnf y (List.mem_range.mp hy)]
    rfl]
  rw [show (g.map fun c => List.replicate 0 0 ++
      (List.range H).map fun y => c.getD y 0) =
    g.map fun c => (List.range H).map fun y => c.getD y 0 from rfl]
  rw [List.map_congr_left fun c hc => map_getD_range H c (hcols c hc)]
  exact List.map_id g

lemma clearLoop_spec (W H : ℕ) : ∀ (steps : ℕ) (g : IGrid) (cy : ℤ) (count : ℕ),
    g.length = W → (∀ c ∈ g, c.length = H) → 0 < W →
    (∀ y, y < H → rowFull W g y = true →
      cy - steps + 1 ≤ (y : ℤ) ∧ (y : ℤ) ≤ cy) →
    0 ≤ cy - steps + 1 →
    clearLoop W H g cy steps count =
      (specCleared W H g, count + countFullRows W H g) := by
  intro steps
  induction steps with
  | zero =>
    intro g cy count hgl hcols hW hfull hlo
    rw [clearLoop]
    have hnf : ∀ y < H, rowFull W g y = false := by
      intro y hy
      by_cases hfy : rowFull W g y = true
      · have := hfull y hy hfy
        omega
      · simp only [Bool.not_eq_true] at hfy
        exact hfy
    rw [show countFullRows W H g = 0 from List.countP_eq_zero.mpr fun y hy => by
      rw [hnf y (List.mem_range.mp hy)]
      simp]
    rw [specCleared_no_full W H g hnf hcols, Nat.add_zero]
  | succ m ih =>
    intro g cy count hgl hcols hW hfull hlo
    rw [clearLoop]
    by_cases hcyH : (H : ℤ) ≤ cy
    · rw [if_pos hcyH]
      refine ih g (cy - 1) count hgl hcols hW (fun y hy hfy => ?_) (by omega)
      have := hfull y hy hfy
      constructor <;> omega
    · rw [if_neg hcyH]
      have hcy0 : 0 ≤ cy := by omega
      have htn : (cy.toNat : ℤ) = cy := Int.toNat_of_nonneg hcy0
      by_cases hfullrow : rowFull W g cy.toNat = true
      · rw [if_pos hfullrow]
        have hcyH2 : cy.toNat < H := by omega
        have hupper : ∀ y, cy.toNat < y → y < H → rowFull W g y = false := by
          intro y h1 h2
          by_cases hfy : rowFull W g y = true
          · have := hfull y h2 hfy
            omega
          · simp only [Bool.not_eq_true] at hfy
            exact hfy
        have hshape := clearRowOp_shape W H g cy.toNat hcyH2 ⟨hgl, hcols⟩
        have hfull2 : ∀ y, y < H → rowFull W (clearRowOp g cy.toNat) y = true →
            cy - m + 1 ≤ (y : ℤ) ∧ (y : ℤ) ≤ cy := by
          intro y hy hfy
          rw [rowFull_clearRowOp W H g cy.toNat hcols hcyH2 hW y] at hfy
          by_cases hy0 : y = 0
          · rw [if_pos hy0] at hfy
            exact absurd hfy (by simp)
          · rw [if_neg hy0] at hfy
            by_cases hyr : y ≤ cy.toNat
            · rw [if_pos hyr] at hfy
              have := hfull (y - 1) (by omega) hfy
              omega
            · rw [if_neg hyr] at hfy
              have := hfull y hy hfy
              omega
        rw [ih (clearRowOp g cy.toNat) cy (count + 1) hshape.1 hshape.2 hW hfull2
          (by omega)]
        rw [specCleared_clearRowOp W H g cy.toNat hcols hcyH2 hW hfullrow hupper]
        have hc := countFullRows_clearRowOp W H g cy.toNat hcols hcyH2 hW hfullrow
          hupper
        refine congrArg₂ Prod.mk rfl ?_
        omega
      · rw [if_neg hfullrow]
        refine ih g (cy - 1) count hgl hcols hW (fun y hy hfy => ?_) (by omega)
        have h0 := hfull y hy hfy
        refine ⟨by omega, ?_⟩
        by_cases hyeq : (y : ℤ) = cy
        · exfalso
          have hyn : y = cy.toNat := by omega
          rw [hyn] at hfy
          exact hfullrow hfy
        · omega

/-- Claim C3: when the current piece locks (`place_tetromino`) on a board
with no previously completed rows and with `0 ≤ y_pos`, every row that is
completely filled after the piece's in-bounds cells are written is removed,
every row above a removed row shifts down by one, the vacated top rows are
all zeros, and the lines-cleared counter increases by exactly the number of
rows removed in that lock. -/
theorem place_tetromino_clears_spec (W H : ℕ) (g : IGrid) (t : TminoData)
    (xp yp : ℤ) (lines : ℕ)
    (hgl : g.length = W) (hcols : ∀ c ∈ g, c.length = H) (hW : 0 < W)
    (hyp : 0 ≤ yp) (hnofull : ∀ y < H, rowFull W g y = false) :
    place_tetromino W H g t xp yp lines =
      (specCleared W H (writeTmino W H t xp yp g),
       lines + countFullRows W H (writeTmino W H t xp yp g)) := by
  unfold place_tetromino
  have hshape := writeTmino_shape W H t xp yp g ⟨hgl, hcols⟩
  refine clearLoop_spec W H t.size (writeTmino W H t xp yp g)
    (yp + (t.size : ℤ) - 1) lines hshape.1 hshape.2 hW ?_ (by omega)
  intro y hy hfy
  by_cases hin : yp ≤ (y : ℤ) ∧ (y : ℤ) < yp + (t.size : ℤ)
  · constructor <;> omega
  · exfalso
    have hout : (y : ℤ) < yp ∨ yp + (t.size : ℤ) ≤ (y : ℤ) := by omega
    have hcg := rowFull_congr W (writeTmino W H t xp yp g) g y y
      fun x _ => writeTmino_cell_outside W H t xp yp g x y hout
    rw [hcg] at hfy
    rw [hnofull y hy] at hfy
    exact absurd hfy (by simp)

/-- Witness for claim C3: a piece completing the bottom row of an empty
2 by 2 board clears exactly that row. -/
theorem place_tetromino_clears_spec_witness :
    (gC3.length = 2 ∧ (∀ c ∈ gC3, c.length = 2) ∧
      (∀ y < 2, rowFull 2 gC3 y = false)) ∧
    place_tetromino 2 2 gC3 tC3 0 0 3 =
      (specCleared 2 2 (writeTmino 2 2 tC3 0 0 gC3),
       3 + countFullRows 2 2 (writeTmino 2 2 tC3 0 0 gC3)) :=
  ⟨⟨by decide, by decide, by decide⟩,
    place_tetromino_clears_spec 2 2 gC3 tC3 0 0 3 (by decide) (by decide)
      (by decide) (by decide) (by decide)⟩

lemma rankedPairs_length (fits : List ℕ) :
    (rankedPairs fits).length = fits.length := by
  simp [rankedPairs]

lemma rankedPairs_perm (fits : List ℕ) :
    (rankedPairs fits).Perm (fits.zip (List.range fits.length)) := by
  rw [rankedPairs]
  exact (List.reverse_perm _).trans (List.perm_insertionSort _ _)

lemma rankedPairs_snd_perm (fits : List ℕ) :
    ((rankedPairs fits).map Prod.snd).Perm (List.range fits.length) := by
  have h := (rankedPairs_perm fits).map Prod.snd
  rwa [List.map_snd_zip _ _ (by simp)] at h

lemma rankedPairs_pairwise (fits : List ℕ) :
    (rankedPairs fits).Pairwise fun a b => b.1 ≤ a.1 := by
  rw [rankedPairs, List.pairwise_reverse]
  exact List.sorted_insertionSort fitLE _

lemma rankedPairs_getD_le (fits : List ℕ) (i j : ℕ) (hij : i ≤ j)
    (hj : j < fits.length) :
    ((rankedPairs fits).getD j (0, 0)).1 ≤ ((rankedPairs fits).getD i (0, 0)).1 := by
  rcases Nat.lt_or_ge i j with hlt | hge
  · have hp := rankedPairs_pairwise fits
    rw [List.pairwise_iff_getElem] at hp
    have hjl : j < (rankedPairs fits).length := by rw [rankedPairs_length]; exact hj
    have hil : i < (rankedPairs fits).length := lt_of_lt_of_le hlt (le_of_lt hjl)
    rw [List.getD_eq_getElem _ _ hil, List.getD_eq_getElem _ _ hjl]
    exact hp i j hil hjl hlt
  · have heq : i = j := le_antisymm hij hge
    subst heq
    exact le_refl _

lemma mem_zip_range_fact (fits : List ℕ) (p : ℕ × ℕ)
    (hp : p ∈ fits.zip (List.range fits.length)) :
    p.2 < fits.length ∧ p.1 = fits.getD p.2 0 := by
  obtain ⟨k, hk, hke⟩ := List.mem_iff_getElem.mp hp
  have hkz : k < fits.length := by simpa using hk
  rw [List.getElem_zip, List.getElem_range] at hke
  subst hke
  exact ⟨hkz, by rw [List.getD_eq_getElem _ _ hkz]⟩

lemma rankedPairs_mem_fact (fits : List ℕ) (p : ℕ × ℕ)
    (hp : p ∈ rankedPairs fits) :
    p.2 < fits.length ∧ p.1 = fits.getD p.2 0 :=
  mem_zip_range_fact fits p ((rankedPairs_perm fits).mem_iff.mp hp)

lemma clone_eq_of_ne_nil (ai : TetrisAI) (rs : RandState)
    (h1 : ai.row_filled_weights ≠ []) (h2 : ai.hole_height_weights ≠ [])
    (h3 : ai.column_diff_weights ≠ []) : clone ai rs = (ai, rs) := by
  rw [clone, init_of_ne_nil _ _ _ _ _ _ h1 h2 h3]

lemma cloneMany_eq_map (ais : List TetrisAI)
    (hne : ∀ a ∈ ais, a.row_filled_weights ≠ [] ∧ a.hole_height_weights ≠ [] ∧
      a.column_diff_weights ≠ []) :
    ∀ (ps : List (ℕ × ℕ)) (rs : RandState), (∀ p ∈ ps, p.2 < ais.length) →
      cloneMany ais ps rs = (ps.map fun p => ais.getD p.2 defaultAI, rs) := by
  intro ps
  induction ps with
  | nil => intro rs _; simp [cloneMany]
  | cons p ps ih =>
    intro rs hb
    have hmem : ais.getD p.2 defaultAI ∈ ais := by
      rw [List.getD_eq_getElem _ _ (hb p (by simp))]
      exact List.getElem_mem _
    obtain ⟨h1, h2, h3⟩ := hne _ hmem
    have hc := clone_eq_of_ne_nil (ais.getD p.2 defaultAI) rs h1 h2 h3
    rw [List.getD_eq_getElem?_getD] at hc
    simp [cloneMany, hc, ih _ (fun q hq => hb q (by simp [hq]))]

lemma nextGenLoop_prefix (popSize : ℕ) (mutRate : ℚ) (ais : List TetrisAI)
    (highest : List (ℕ × ℕ)) (rfuel : ℕ) :
    ∀ (fuel : ℕ) (acc : List TetrisAI) (rs : RandState)
      (res : List TetrisAI × RandState),
      nextGenLoop popSize mutRate ais highest rfuel acc rs fuel = some res →
      res.1.length = popSize ∧ ∃ extra, res.1 = acc ++ extra := by
  intro fuel
  induction fuel with
  | zero =>
    intro acc rs res h
    simp only [nextGenLoop] at h
    by_cases hl : acc.length = popSize
    · rw [if_pos hl] at h
      obtain rfl := Option.some.inj h
      exact ⟨hl, [], by simp⟩
    · rw [if_neg hl] at h
      exact absurd h (by simp)
  | succ fuel ih =>
    intro acc rs res h
    simp only [nextGenLoop] at h
    by_cases hl : acc.length = popSize
    · rw [if_pos hl] at h
      obtain rfl := Option.some.inj h
      exact ⟨hl, [], by simp⟩
    · rw [if_neg hl] at h
      rcases hd : drawDistinct (highest.length - 1)
          (randintLe rs (highest.length - 1)).1
          (randintLe rs (highest.length - 1)).2 rfuel with _ | q2
      · rw [hd] at h
        exact absurd h (by simp)
      · rw [hd] at h
        obtain ⟨hlen, extra, hext⟩ := ih _ _ _ h
        exact ⟨hlen, _, by rw [hext, List.append_assoc]⟩

/-- Claim C4: after one evolution step with `population_size = 10` and
`selection_size = 4`, given that the top-`selection_size` average fitness is
above the reseed floor `0.1` (and that the filling loop terminates within
its budget, every AI of the previous generation having nonempty weight
lists), the new population has exactly 10 members, and its first 5 members
are element-for-element equal, unmutated, independent copies of the 5
top-ranked AIs of the previous generation, where the ranking pairs are a
permutation of the instance indices, are in descending lines-cleared order,
and carry each instance's own fitness. -/
theorem next_generation_elitism (W H : ℕ) (mutRate : ℚ) (ais : List TetrisAI)
    (fits : List ℕ) (rs : RandState) (fuel rfuel : ℕ)
    (res : List TetrisAI × RandState)
    (hlen : ais.length = 10) (hflen : fits.length = 10)
    (hne : ∀ a ∈ ais, a.row_filled_weights ≠ [] ∧ a.hole_height_weights ≠ [] ∧
      a.column_diff_weights ≠ [])
    (havg : 1 / 10 < avgMostOf fits 4)
    (hres : next_generation W H 10 4 mutRate ais fits rs fuel rfuel = some res) :
    res.1.length = 10 ∧
    ((rankedPairs fits).map Prod.snd).Perm (List.range 10) ∧
    (∀ i j : ℕ, i ≤ j → j < 10 →
      ((rankedPairs fits).getD j (0, 0)).1 ≤ ((rankedPairs fits).getD i (0, 0)).1) ∧
    (∀ i : ℕ, i < 10 →
      ((rankedPairs fits).getD i (0, 0)).1 =
        fits.getD ((rankedPairs fits).getD i (0, 0)).2 0) ∧
    ∀ i : ℕ, i < 5 →
      res.1.getD i defaultAI =
        ais.getD ((rankedPairs fits).getD i (0, 0)).2 defaultAI := by
  have hrp : (rankedPairs fits).length = 10 := by rw [rankedPairs_length, hflen]
  simp only [next_generation] at hres
  rw [if_neg (not_le.mpr havg)] at hres
  have hb : ∀ p ∈ (rankedPairs fits).take 5, p.2 < ais.length := by
    intro p hp
    have := (rankedPairs_mem_fact fits p (List.mem_of_mem_take hp)).1
    omega
  rw [cloneMany_eq_map ais hne _ rs hb] at hres
  obtain ⟨hlen10, extra, hext0⟩ :=
    nextGenLoop_prefix 10 mutRate ais _ rfuel fuel _ _ res hres
  have hext : res.1 =
      ((((rankedPairs fits).take 5).map fun p => ais.getD p.2 defaultAI)) ++ extra :=
    hext0
  have hmaplen :
      (((rankedPairs fits).take 5).map fun p => ais.getD p.2 defaultAI).length = 5 := by
    rw [List.length_map, List.length_take]
    omega
  refine ⟨hlen10, ?_, ?_, ?_, ?_⟩
  · have hperm := rankedPairs_snd_perm fits
    rwa [hflen] at hperm
  · intro i j hij hj
    exact rankedPairs_getD_le fits i j hij (by omega)
  · intro i hi
    have hil : i < (rankedPairs fits).length := by omega
    have hmem : (rankedPairs fits).getD i (0, 0) ∈ rankedPairs fits := by
      rw [List.getD_eq_getElem _ _ hil]
      exact List.getElem_mem _
    exact (rankedPairs_mem_fact fits _ hmem).2
  · intro i hi
    have hil : i < (rankedPairs fits).length := by omega
    rw [hext, getD_append_lt _ _ _ _ (by omega : i < _)]
    rw [List.getD_eq_getElem _ _ (by omega : i < _), List.getElem_map,
      List.getElem_take, List.getD_eq_getElem _ _ hil]

set_option maxHeartbeats 2000000 in
/-- Claim C4 witness: the elitism theorem applied to a concrete
10-member generation with fitness scores `[3, 1, 4, 1, 5, 9, 2, 6, 5, 3]`,
a top-4 average of `25/4 > 1/10`, and a fully evaluated evolution step. -/
theorem next_generation_elitism_witness :
    aisC4.length = 10 ∧ fitsC4.length = 10 ∧
    (1 : ℚ) / 10 < avgMostOf fitsC4 4 ∧
    next_generation 1 1 10 4 0 aisC4 fitsC4 rsC4 5 1 = some resC4 ∧
    (resC4.1.length = 10 ∧
      ((rankedPairs fitsC4).map Prod.snd).Perm (List.range 10) ∧
      (∀ i j : ℕ, i ≤ j → j < 10 →
        ((rankedPairs fitsC4).getD j (0, 0)).1 ≤
          ((rankedPairs fitsC4).getD i (0, 0)).1) ∧
      (∀ i : ℕ, i < 10 →
        ((rankedPairs fitsC4).getD i (0, 0)).1 =
          fitsC4.getD ((rankedPairs fitsC4).getD i (0, 0)).2 0) ∧
      ∀ i : ℕ, i < 5 →
        resC4.1.getD i defaultAI =
          aisC4.getD ((rankedPairs fitsC4).getD i (0, 0)).2 defaultAI) := by
  have havg : (1 : ℚ) / 10 < avgMostOf fitsC4 4 := by
    norm_num [avgMostOf, rankedPairs, fitLE, fitsC4, List.insertionSort,
      List.orderedInsert]
  have hne : ∀ a ∈ aisC4, a.row_filled_weights ≠ [] ∧
      a.hole_height_weights ≠ [] ∧ a.column_diff_weights ≠ [] := by
    intro a ha
    simp only [aisC4, List.mem_cons, List.not_mem_nil, or_false] at ha
    rcases ha with h | h | h | h | h | h | h | h | h | h <;> subst h <;>
      exact ⟨by simp, by simp, by simp⟩
  have hres : next_generation 1 1 10 4 0 aisC4 fitsC4 rsC4 5 1 = some resC4 := by
    norm_num [next_generation, rankedPairs, avgMostOf, fitLE, fitsC4, aisC4, rsC4,
      resC4, List.insertionSort, List.orderedInsert, cloneMany, clone,
      TetrisAI.init, nextGenLoop, drawDistinct, randintLe, crossover, mutate,
      mutateList, drawProb, random_weight, drawWeights, defaultAI,
      hole_height_cap, column_diff_cap, List.range, List.range.loop]
  exact ⟨rfl, rfl, havg, hres,
    next_generation_elitism 1 1 0 aisC4 fitsC4 rsC4 5 1 resC4 rfl rfl hne havg hres⟩
